import Mathlib

/-!
Verification of the QueueSim discrete-event simulation kernel and model
builders, shallowly embedded from `src/queuesim/descore.py`,
`src/queuesim/models.py` and `src/queuesim/random_dist.py`.

Python floats are modelled as rationals; the mutable `Simulator` object is
modelled as an explicit state record; an event's `run()` body is modelled as
a list of kernel calls (schedule / mark-removed / remove_event) computed
from the event's id and the simulator state at firing time.
-/

namespace QueueSim

/-- An event of `descore.Event`: `id` stands for Python object identity
(`is`), `time` is the scheduled execution time (`Event.__time`).  The
mutable `__removed` flag lives in the simulator state (`SimState.removed`). -/
structure Event where
  id : Nat
  time : ℚ
deriving DecidableEq

/-- Python `x is e or x == e` as used by `list.__contains__` / `list.remove`:
CPython short-circuits on identity, and `Event.__eq__` (descore.py lines
89-91) compares scheduled times only. -/
def evMatches (target x : Event) : Bool :=
  x.id == target.id || x.time == target.time

/-- `bisect.insort` on a list of events ordered by `Event.__lt__`
(time comparison): insert after all entries with time less than or equal to
the new event's time (Python `insort` = `insort_right`). -/
def insort : List Event → Event → List Event
  | [], e => [e]
  | x :: xs, e => if e.time < x.time then e :: x :: xs else x :: insort xs e

/-- `_ListEventList.add` (descore.py lines 106-125): empty list appends;
strictly earlier than the head prepends; strictly later than the last
appends; otherwise `bisect.insort`. -/
def listAdd (l : List Event) (e : Event) : List Event :=
  match l with
  | [] => [e]
  | x :: xs =>
    if e.time < x.time then e :: x :: xs
    else if ((x :: xs).getLast (List.cons_ne_nil x xs)).time < e.time then (x :: xs) ++ [e]
    else insort (x :: xs) e

/-- `_ListEventList.remove` (descore.py lines 137-148): `list.remove` deletes
the first element matching by identity-or-`__eq__`; returns `none` when no
element matches (Python returns `False`). -/
def listRemove (l : List Event) (e : Event) : Option (List Event) :=
  match l with
  | [] => none
  | x :: xs => if evMatches e x then some xs else (listRemove xs e).map (x :: ·)

/-- The mutable state of `descore.Simulator` (descore.py lines 248-259):
current virtual time, the `_ListEventList` contents, the now-event slot,
the fired-event counter, and the set of event ids whose `__removed` flag
is `True`. -/
structure SimState where
  time : ℚ
  events : List Event
  nowEvent : Option Event
  eventCount : Nat
  removed : Finset Nat
deriving DecidableEq

/-- `Simulator.add_event` (descore.py lines 270-279): an event scheduled at
exactly the current time while the now-slot is free goes into the slot;
every other event goes into the sorted pending list. -/
def add_event (s : SimState) (e : Event) : SimState :=
  if e.time = s.time ∧ s.nowEvent = none then { s with nowEvent := some e }
  else { s with events := listAdd s.events e }

/-- `Simulator.__pop_event` (descore.py lines 281-291).  The outer `none`
models the `assert self.__time <= event.time` failing (AssertionError aborts
the run); the slot is served first and bypasses both the removed check and
the time update; a popped non-removed list event advances the clock. -/
def pop_event (s : SimState) : Option (Option Event × SimState) :=
  match s.nowEvent with
  | some e => some (some e, { s with nowEvent := none })
  | none =>
    match s.events with
    | [] => some (none, s)
    | e :: rest =>
      if e.id ∈ s.removed then some (some e, { s with events := rest })
      else if s.time ≤ e.time then some (some e, { s with events := rest, time := e.time })
      else none

/-- `Simulator.remove_event` (descore.py lines 293-306): identity comparison
with the slot event, otherwise `_ListEventList.remove`. -/
def remove_event (s : SimState) (e : Event) : SimState × Bool :=
  match s.nowEvent with
  | some nv =>
    if nv.id = e.id then ({ s with nowEvent := none }, true)
    else
      match listRemove s.events e with
      | some l => ({ s with events := l }, true)
      | none => (s, false)
  | none =>
    match listRemove s.events e with
    | some l => ({ s with events := l }, true)
    | none => (s, false)

/-- The kernel calls an event handler may make: construct an event (its
constructor calls `Simulator.add_event`), set an event's `__removed` flag
(`Event.remove`), or call `Simulator.remove_event`. -/
inductive Action where
  | schedule (e : Event)
  | markRemoved (i : Nat)
  | removeEvent (e : Event)
deriving DecidableEq

/-- Effect of one handler action on the simulator state. -/
def execAction (s : SimState) (a : Action) : SimState :=
  match a with
  | .schedule e => add_event s e
  | .markRemoved i => { s with removed := insert i s.removed }
  | .removeEvent e => (remove_event s e).1

/-- An event's `run()` body, abstracted: from the event's id and the
simulator state at firing time, the list of kernel calls it performs. -/
def Handler : Type := Nat → SimState → List Action

/-- The dispatch loop of `Simulator.run` (descore.py lines 308-325), with
explicit fuel.  Returns the list of events actually fired (those on which
`run()` was invoked), the final state, and how the loop ended. -/
inductive RunResult where
  | finished
  | aborted
  | outOfFuel
deriving DecidableEq

def runAux (handler : Handler) : Nat → SimState → List Event × SimState × RunResult
  | 0, s => ([], s, .outOfFuel)
  | fuel + 1, s =>
    match pop_event s with
    | none => ([], s, .aborted)
    | some (none, s') => ([], s', .finished)
    | some (some e, s') =>
      if e.id ∈ s'.removed then runAux handler fuel s'
      else
        let s2 := (handler e.id s').foldl execAction s'
        let s3 := { s2 with eventCount := s2.eventCount + 1 }
        let res := runAux handler fuel s3
        (e :: res.1, res.2)

/-! ## random_dist.py -/

/-- Python 3 `round` to an integer: round half to even (banker's rounding). -/
def pythonRound (q : ℚ) : ℤ :=
  let f : ℤ := ⌊q⌋
  let frac : ℚ := q - f
  if frac < 1/2 then f
  else if 1/2 < frac then f + 1
  else if Even f then f else f + 1

/-- The natural parameters `(alpha, beta)` computed by `random_dist.gamma`
(random_dist.py lines 68-87) from the requested mean and standard deviation,
including the reassignment of `beta` to its reciprocal. -/
def gammaParams (mean std : ℚ) : ℚ × ℚ :=
  let beta : ℚ := mean / std ^ 2
  let alpha : ℚ := mean * beta
  let beta : ℚ := 1 / beta
  (alpha, beta)

/-- The natural parameters `(a, scale)` computed by `random_dist.erlang`
(random_dist.py lines 90-109): `scale = std^2 / mean`,
`a = max(1, round(mean / scale))`. -/
def erlangParams (mean std : ℚ) : ℤ × ℚ :=
  let scale : ℚ := std ^ 2 / mean
  let a : ℤ := max 1 (pythonRound (mean / scale))
  (a, scale)

/-- The `for key in values` loop of `random_dist.empirical_helper`
(random_dist.py lines 227-234) with accumulator `s`; `none` models falling
through to the trailing `return 0`.  A Python dict iterates its pairs in
insertion order, so `values` is a list of (value, rate) pairs. -/
def empirical_loop (rnd : ℚ) (s : ℚ) : List (ℚ × ℚ) → Option ℚ
  | [] => none
  | (key, rate) :: rest =>
    let s' := s + rate
    if rnd ≤ s' then some key else empirical_loop rnd s' rest

/-- `random_dist.empirical_helper` (random_dist.py lines 227-234) with the
uniform draw `rnd = random.random() * rate_sum` passed in explicitly: start
the accumulator at `0`, return the first key whose cumulative rate reaches
`rnd`, and fall back to `0` after the loop. -/
def empirical_helper (rnd : ℚ) (values : List (ℚ × ℚ)) : ℚ :=
  (empirical_loop rnd 0 values).getD 0

/-! ## models.py

`src/queuesim/stations.py` is imported by `models.py` but is not part of the
provided sources; the stations below are modelled from the spec (§4.2-§4.6
and §6), recording the constructor arguments and successor wiring that
`models.py` passes to them. -/

/-- A random-generator recipe handed to a station (`random_dist.exp` returns
a textual recipe built from the mean; only the mean matters here). -/
inductive GenRecipe where
  | exp (mean : ℚ)
deriving DecidableEq

/-- Names for the stations a model builder wires together. -/
inductive StationLabel where
  | source
  | process
  | dispose
  | retryDecide
  | retryDelay
deriving DecidableEq

/-- Modelled from the spec: the `Source` station of the missing
`stations.py` (§4.2: target arrival count and inter-arrival generator, plus
a successor set by `set_next`). -/
structure Source where
  count : Nat
  getI : GenRecipe
  next : Option StationLabel
deriving DecidableEq

/-- Modelled from the spec: the `Process` station of the missing
`stations.py` (§4.3: service-time generator, operator count `c`, optional
patience generator; successors set by `set_next` / `set_next_cancel`). -/
structure Process where
  getS : GenRecipe
  c : Nat
  getNu : Option GenRecipe
  next : Option StationLabel
  nextCancel : Option StationLabel
deriving DecidableEq

/-- Modelled from the spec: the `Delay` station of the missing `stations.py`
(§4.4: delay generator and successor). -/
structure Delay where
  getDelay : GenRecipe
  next : Option StationLabel
deriving DecidableEq

/-- Modelled from the spec: the `Decide`-by-weight station of the missing
`stations.py` (§4.5: successors with weights, added by `add_next`). -/
structure Decide where
  nexts : List (StationLabel × ℚ)
deriving DecidableEq

/-- The dict returned by `models.impatience_and_retry_model_build`: the
stations and the recorded input parameters. -/
structure ImpatienceRetryModel where
  source : Source
  process : Process
  retryStations : Option (Decide × Delay)
  meanI : ℚ
  meanS : ℚ
  meanWT : ℚ
  c : Nat
deriving DecidableEq

/-- `models.impatience_and_retry_model_build` (models.py lines 106-150):
builds the M/M/c + M model; note the local reassignment `c = 1` (line 127)
before any station is constructed. -/
def impatience_and_retry_model_build (mean_i mean_s mean_wt retry_probability
    mean_retry_delay : ℚ) (c : Nat) (count : Nat) : ImpatienceRetryModel :=
  let get_i := GenRecipe.exp mean_i
  let get_s := GenRecipe.exp mean_s
  let get_nu := GenRecipe.exp mean_wt
  let get_delay := GenRecipe.exp mean_retry_delay
  let c := 1
  let source : Source := { count := count, getI := get_i, next := some .process }
  if 0 < retry_probability then
    let process : Process :=
      { getS := get_s, c := c, getNu := some get_nu,
        next := some .dispose, nextCancel := some .retryDecide }
    let retry_decide : Decide :=
      { nexts := [(.retryDelay, retry_probability), (.dispose, 1 - retry_probability)] }
    let retry_delay : Delay := { getDelay := get_delay, next := some .process }
    { source := source, process := process,
      retryStations := some (retry_decide, retry_delay),
      meanI := mean_i, meanS := mean_s, meanWT := mean_wt, c := c }
  else
    let process : Process :=
      { getS := get_s, c := c, getNu := some get_nu,
        next := some .dispose, nextCancel := some .dispose }
    { source := source, process := process, retryStations := none,
      meanI := mean_i, meanS := mean_s, meanWT := mean_wt, c := c }

/-- Errors `models.build_network_model` can raise: the explicit
`RuntimeError`s with their messages, or an `IndexError` from an
out-of-range list subscript. -/
inductive NetErr where
  | runtimeError (msg : String)
  | indexError
deriving DecidableEq

/-- The inner loop of the single-connection branch of
`models.build_network_model` (models.py lines 189-191): for every positive
rate, `processes[next_index]` is subscripted, raising `IndexError` when
`next_index` is not below the number of process stations. -/
def singleConnect (P : Nat) : Nat → List ℚ → Except NetErr Unit
  | _, [] => .ok ()
  | i, rate :: rest =>
    if 0 < rate then
      if i < P then singleConnect P (i + 1) rest else .error .indexError
    else singleConnect P (i + 1) rest

/-- One iteration of the first wiring loop of `models.build_network_model`
(models.py lines 173-180): only the column-count check can fail, and only
when the row is longer than the process list. -/
def connectSource (P : Nat) (row : List ℚ) : Except NetErr Unit :=
  if P < row.length then
    .error (.runtimeError "connections1 column count does mot match number of processes")
  else .ok ()

/-- One iteration of the second wiring loop of `models.build_network_model`
(models.py lines 183-201): column-count check, then either the
single-connection branch (exactly one positive rate) or a Decide station
(whose subscripts are always in range once the column check passed). -/
def connectProcess (P D : Nat) (row : List ℚ) : Except NetErr Unit :=
  if P + D < row.length then
    .error (.runtimeError "connections2 column count does mot match sum of number of processes and number of dispose stations")
  else if (row.filter (fun r => 0 < r)).length = 1 then singleConnect P 0 row
  else .ok ()

/-- Run a per-row action over the rows in order, stopping at the first
error (the Python `for` loops propagate the first raised exception). -/
def forRows (f : List ℚ → Except NetErr Unit) : List (List ℚ) → Except NetErr Unit
  | [] => .ok ()
  | row :: rest =>
    match f row with
    | .error e => .error e
    | .ok _ => forRows f rest

/-- `models.build_network_model` (models.py lines 153-201) reduced to its
error behaviour: the two row-count checks, the `sources[0].simulator`
subscript, then the two wiring loops.  `S`, `P`, `D` are the lengths of the
station lists. -/
def build_network_model (S P D : Nat) (connections1 connections2 : List (List ℚ)) :
    Except NetErr Unit :=
  if connections1.length ≠ S then
    .error (.runtimeError "connections1 row count does not match number of sources")
  else if connections2.length ≠ P then
    .error (.runtimeError "connections2 row count does not match number of processes")
  else if S = 0 then .error .indexError
  else
    match forRows (connectSource P) connections1 with
    | .error e => .error e
    | .ok _ => forRows (connectProcess P D) connections2

/-- Invariant of every reachable simulator state: an event sitting in the
now-slot was scheduled at exactly the then-current time (`add_event` only
fills the slot under that condition, and the clock does not move while the
slot is occupied). -/
def NowInv (s : SimState) : Prop :=
  ∀ e, s.nowEvent = some e → e.time = s.time

/-- The pending list is sorted by scheduled time. -/
def TimeSorted (l : List Event) : Prop :=
  l.Sorted (fun a b => a.time ≤ b.time)

/-- `A` occurs in `l` and no occurrence of `B` precedes it. -/
def priorTo (A B : Event) (l : List Event) : Prop :=
  ∃ u v, l = u ++ A :: v ∧ B ∉ u

/-- In the fired-event trace `tr`, every prefix containing `B` already
contains `A`: `A.run()` is invoked before `B.run()`. -/
def beforeIn (A B : Event) (tr : List Event) : Prop :=
  ∀ k, B ∈ tr.take k → A ∈ tr.take k

/-- In the fired-event trace `tr`, every prefix containing an event with a
strictly larger scheduled time than `E` already contains `E`. -/
def firesBeforeLater (E : Event) (tr : List Event) : Prop :=
  ∀ k f, f ∈ tr.take k → E.time < f.time → E ∈ tr.take k

/-- No pending event (list or now-slot) carries id `i`: the event with id
`i`, if it ever existed, has already fired or never existed. -/
def NoIdPending (i : Nat) (s : SimState) : Prop :=
  (∀ x ∈ s.events, x.id ≠ i) ∧ (∀ nv, s.nowEvent = some nv → nv.id ≠ i)

/-- Handlers whose behaviour does not depend on the `__removed` flags of
events: they may schedule, mark and remove, but their choice of kernel
calls reads only the clock, the pending events, the slot and the counter. -/
def HandlerIndep (handler : Handler) : Prop :=
  ∀ j (s₁ s₂ : SimState), s₁.time = s₂.time → s₁.events = s₂.events →
    s₁.nowEvent = s₂.nowEvent → s₁.eventCount = s₂.eventCount →
    handler j s₁ = handler j s₂

/-! ## Theorems -/

theorem pythonRound_intCast (k : ℤ) : pythonRound (k : ℚ) = k := by
  have hfloor : ⌊(k : ℚ)⌋ = k := Int.floor_intCast k
  simp only [pythonRound, hfloor]
  norm_num

/-- C7: For every caller-supplied operator count `c`,
`impatience_and_retry_model_build` locally reassigns `c = 1` regardless of
the caller's argument: the Process station in the returned model is
constructed with exactly one operator and the returned dict's `c` entry
equals `1`, for all values of the `c` parameter. -/
theorem impatience_retry_forces_single_operator (mean_i mean_s mean_wt
    retry_probability mean_retry_delay : ℚ) (c count : Nat) :
    (impatience_and_retry_model_build mean_i mean_s mean_wt retry_probability
      mean_retry_delay c count).process.c = 1 ∧
    (impatience_and_retry_model_build mean_i mean_s mean_wt retry_probability
      mean_retry_delay c count).c = 1 := by
  unfold impatience_and_retry_model_build
  split <;> simp

/-- C9 counterexample: at requested mean 1 and standard deviation 2 the
Erlang builder computes shape `a = max(1, round(1/4)) = 1` and
`scale = 4`, so `a * scale = 4 ≠ 1 = mean` and
`a * scale^2 = 16 ≠ 4 = std^2`: the claimed exact conversion fails for the
Erlang builder. -/
theorem erlang_params_not_exact :
    (0 : ℚ) < 1 ∧ (0 : ℚ) < 2 ∧
    ¬(((erlangParams 1 2).1 : ℚ) * (erlangParams 1 2).2 = 1 ∧
      ((erlangParams 1 2).1 : ℚ) * (erlangParams 1 2).2 ^ 2 = 2 ^ 2) := by
  refine ⟨by norm_num, by norm_num, ?_⟩
  have h : erlangParams 1 2 = (1, 4) := by
    have hr : pythonRound ((1 : ℚ) / ((2 : ℚ) ^ 2 / 1)) = 0 := by
      norm_num [pythonRound]
    simp only [erlangParams, hr]
    norm_num
  rw [h]
  norm_num

/-- C9 amended: the gamma builder converts exactly: `alpha * beta = mean`
and `alpha * beta^2 = std^2` for every requested `mean > 0`, `std > 0`.
The Erlang builder computes `scale = std^2/mean` and
`a = max(1, round(mean/scale))`; because of the rounding, its conversion is
exact precisely on inputs where `mean^2/std^2` is a positive integer, in
which case `a = mean^2/std^2`, `a * scale = mean` and
`a * scale^2 = std^2`. -/
theorem gamma_erlang_param_conversion (mean std : ℚ) (hm : 0 < mean) (hs : 0 < std) :
    ((gammaParams mean std).1 * (gammaParams mean std).2 = mean ∧
     (gammaParams mean std).1 * (gammaParams mean std).2 ^ 2 = std ^ 2) ∧
    (∀ k : ℤ, 0 < k → mean ^ 2 = k * std ^ 2 →
      (erlangParams mean std).1 = k ∧
      ((erlangParams mean std).1 : ℚ) * (erlangParams mean std).2 = mean ∧
      ((erlangParams mean std).1 : ℚ) * (erlangParams mean std).2 ^ 2 = std ^ 2) := by
  have hm' : mean ≠ 0 := ne_of_gt hm
  have hs' : std ≠ 0 := ne_of_gt hs
  constructor
  · constructor
    · show mean * (mean / std ^ 2) * (1 / (mean / std ^ 2)) = mean
      field_simp
    · show mean * (mean / std ^ 2) * (1 / (mean / std ^ 2)) ^ 2 = std ^ 2
      field_simp
      ring
  · intro k hk hksq
    have hscale : mean / (std ^ 2 / mean) = (k : ℚ) := by
      field_simp
      linarith [hksq]
    have ha : (erlangParams mean std).1 = k := by
      show max 1 (pythonRound (mean / (std ^ 2 / mean))) = k
      rw [hscale, pythonRound_intCast]
      exact max_eq_right hk
    have hk' : (k : ℚ) = mean ^ 2 / std ^ 2 := by
      field_simp
      linarith [hksq]
    refine ⟨ha, ?_, ?_⟩
    · show ((erlangParams mean std).1 : ℚ) * (std ^ 2 / mean) = mean
      rw [ha, hk']
      field_simp
      ring
    · show ((erlangParams mean std).1 : ℚ) * (std ^ 2 / mean) ^ 2 = std ^ 2
      rw [ha, hk']
      field_simp
      ring

theorem gamma_erlang_param_conversion_witness :
    (0 : ℚ) < 2 ∧ (0 : ℚ) < 1 ∧
    ((gammaParams 2 1).1 * (gammaParams 2 1).2 = 2 ∧
     (erlangParams 2 1).1 = 4 ∧
     ((erlangParams 2 1).1 : ℚ) * (erlangParams 2 1).2 = 2) := by
  have h := gamma_erlang_param_conversion 2 1 (by norm_num) (by norm_num)
  have h4 := h.2 4 (by norm_num) (by norm_num)
  exact ⟨by norm_num, by norm_num, h.1.1, h4.1, h4.2.1⟩

theorem empirical_loop_reaches_key (rnd : ℚ) :
    ∀ (values : List (ℚ × ℚ)) (s : ℚ), values ≠ [] →
      rnd ≤ s + (values.map Prod.snd).sum →
      ∃ k ∈ values.map Prod.fst, empirical_loop rnd s values = some k := by
  intro values
  induction values with
  | nil => intro s h; exact absurd rfl h
  | cons kv rest ih =>
    intro s _ hsum
    by_cases hstop : rnd ≤ s + kv.2
    · refine ⟨kv.1, by simp, ?_⟩
      simp only [empirical_loop, hstop, if_pos]
    · have hrest : rest ≠ [] := by
        intro hnil
        subst hnil
        simp at hsum
        exact hstop hsum
      have hsum' : rnd ≤ (s + kv.2) + (rest.map Prod.snd).sum := by
        simp only [List.map_cons, List.sum_cons] at hsum
        linarith
      obtain ⟨k, hk, hloop⟩ := ih (s + kv.2) hrest hsum'
      refine ⟨k, by simp [hk], ?_⟩
      simpa only [empirical_loop, hstop, if_neg, not_false_iff] using hloop

/-- C10: for every non-empty `values` with strictly positive rates summing
to `R` and every draw `u` in `[0, R)`, `empirical_helper` returns one of
the keys of `values` and the loop returns before the trailing `return 0`
is reached. -/
theorem empirical_helper_hits_key (u : ℚ) (values : List (ℚ × ℚ))
    (hne : values ≠ []) (hpos : ∀ kv ∈ values, 0 < kv.2)
    (hlo : 0 ≤ u) (hhi : u < (values.map Prod.snd).sum) :
    ∃ k ∈ values.map Prod.fst,
      empirical_loop u 0 values = some k ∧ empirical_helper u values = k := by
  obtain ⟨k, hk, hloop⟩ :=
    empirical_loop_reaches_key u values 0 hne (by linarith)
  exact ⟨k, hk, hloop, by simp [empirical_helper, hloop]⟩

theorem empirical_helper_hits_key_witness :
    ([((3 : ℚ), (1 : ℚ))] ≠ []) ∧
    (∃ k ∈ [((3 : ℚ), (1 : ℚ))].map Prod.fst,
      empirical_loop (1/2) 0 [(3, 1)] = some k ∧
      empirical_helper (1/2) [(3, 1)] = k) :=
  ⟨by simp, empirical_helper_hits_key (1/2) [(3, 1)] (by simp)
    (by norm_num) (by norm_num) (by norm_num [List.sum_cons])⟩

theorem singleConnect_ok_or_index (P : Nat) :
    ∀ (row : List ℚ) (i : Nat),
      singleConnect P i row = .ok () ∨ singleConnect P i row = .error .indexError := by
  intro row
  induction row with
  | nil => intro i; left; rfl
  | cons rate rest ih =>
    intro i
    by_cases hr : 0 < rate
    · by_cases hi : i < P
      · simpa only [singleConnect, hr, hi, if_pos, if_true] using ih (i + 1)
      · right
        simp only [singleConnect, hr, hi, if_pos, if_neg, not_false_iff, if_false]
    · simpa only [singleConnect, hr, if_neg, not_false_iff, if_false] using ih (i + 1)

theorem forRows_ok_iff (f : List ℚ → Except NetErr Unit) (rows : List (List ℚ)) :
    forRows f rows = .ok () ↔ ∀ r ∈ rows, f r = .ok () := by
  induction rows with
  | nil => simp [forRows]
  | cons row rest ih =>
    cases hrow : f row with
    | error e => simp [forRows, hrow]
    | ok u => cases u; simp [forRows, hrow, ih]

theorem forRows_error_mem (f : List ℚ → Except NetErr Unit) (rows : List (List ℚ))
    (e : NetErr) (h : forRows f rows = .error e) : ∃ r ∈ rows, f r = .error e := by
  induction rows with
  | nil => simp [forRows] at h
  | cons row rest ih =>
    cases hrow : f row with
    | error e' =>
      simp only [forRows, hrow] at h
      cases h
      exact ⟨row, List.mem_cons_self row rest, hrow⟩
    | ok u =>
      cases u
      simp only [forRows, hrow] at h
      obtain ⟨r, hr, hfr⟩ := ih h
      exact ⟨r, List.mem_cons_of_mem row hr, hfr⟩

theorem connectSource_ok_iff (P : Nat) (row : List ℚ) :
    connectSource P row = .ok () ↔ ¬ P < row.length := by
  by_cases h : P < row.length <;> simp [connectSource, h]

theorem connectSource_error_iff (P : Nat) (row : List ℚ) (e : NetErr) :
    connectSource P row = .error e ↔ (P < row.length ∧
      e = .runtimeError "connections1 column count does mot match number of processes") := by
  by_cases h : P < row.length <;> simp [connectSource, h, eq_comm]

theorem connectProcess_error_iff (P D : Nat) (row : List ℚ) (e : NetErr)
    (hSing : (row.filter (fun r => 0 < r)).length = 1 → singleConnect P 0 row = .ok ()) :
    connectProcess P D row = .error e ↔ (P + D < row.length ∧
      e = .runtimeError "connections2 column count does mot match sum of number of processes and number of dispose stations") := by
  by_cases h : P + D < row.length
  · simp [connectProcess, h, eq_comm]
  · by_cases hone : (row.filter (fun r => 0 < r)).length = 1
    · simp [connectProcess, h, hone, hSing hone]
    · simp [connectProcess, h, hone]

theorem except_ok_or_error (x : Except NetErr Unit) :
    x = .ok () ∨ ∃ e, x = .error e := by
  cases x with
  | error e => exact Or.inr ⟨e, rfl⟩
  | ok u => cases u; exact Or.inl rfl

/-- C8 counterexample: with one source, two process stations and one
dispose station, a `connections1` of one row of length 1 (instead of the
required length 2) is accepted: `build_network_model` returns normally
although the matrix dimensions do not match the station lists. -/
theorem build_network_model_accepts_short_rows :
    build_network_model 1 2 1 [[1]] [[0, 1, 0], [1, 0, 0]] = .ok () ∧
    ∀ row ∈ [[(1 : ℚ)]], row.length ≠ 2 := by
  constructor
  · rfl
  · intro row hrow
    simp only [List.mem_singleton] at hrow
    subst hrow
    simp

/-- C8 amended: `build_network_model` raises `RuntimeError` exactly when a
row count does not match (`len(connections1) ≠ len(sources)` or
`len(connections2) ≠ len(processes)`) or some row has *more* columns than
allowed; rows with too few columns are accepted silently.  (The statement
assumes a non-empty source list — the builder subscripts `sources[0]` — and
that no single-connection row routes its one positive weight to a dispose
station, which would raise `IndexError` in `processes[next_index]` before
the remaining rows are checked.) -/
theorem build_network_model_runtime_error_iff (S P D : Nat)
    (c1 c2 : List (List ℚ)) (hS : 0 < S)
    (hSingle : ∀ row ∈ c2, (row.filter (fun r => 0 < r)).length = 1 →
      singleConnect P 0 row = .ok ()) :
    (∃ m, build_network_model S P D c1 c2 = .error (.runtimeError m)) ↔
      (c1.length ≠ S ∨ c2.length ≠ P ∨ (∃ row ∈ c1, P < row.length) ∨
        (∃ row ∈ c2, P + D < row.length)) := by
  unfold build_network_model
  by_cases h1 : c1.length ≠ S
  · rw [if_pos h1]
    exact ⟨fun _ => Or.inl h1, fun _ => ⟨_, rfl⟩⟩
  · rw [if_neg h1]
    by_cases h2 : c2.length ≠ P
    · rw [if_pos h2]
      exact ⟨fun _ => Or.inr (Or.inl h2), fun _ => ⟨_, rfl⟩⟩
    · rw [if_neg h2, if_neg (by omega : ¬ S = 0)]
      rcases except_ok_or_error (forRows (connectSource P) c1) with hok | ⟨e, herr⟩
      · rw [hok]
        have hnone1 : ¬∃ row ∈ c1, P < row.length := by
          rintro ⟨row, hrow, hlen⟩
          exact (connectSource_ok_iff P row).mp
            ((forRows_ok_iff (connectSource P) c1).mp hok row hrow) hlen
        constructor
        · rintro ⟨m, hm⟩
          obtain ⟨row, hrow, hfr⟩ := forRows_error_mem _ c2 _ hm
          have := (connectProcess_error_iff P D row _ (hSingle row hrow)).mp hfr
          exact Or.inr (Or.inr (Or.inr ⟨row, hrow, this.1⟩))
        · intro hcase
          have hrow2 : ∃ row ∈ c2, P + D < row.length := by
            rcases hcase with hc | hc | hc | hc
            · exact absurd hc (by simpa using h1)
            · exact absurd hc (by simpa using h2)
            · exact absurd hc hnone1
            · exact hc
          obtain ⟨row, hrow, hlen⟩ := hrow2
          have hne : forRows (connectProcess P D) c2 ≠ .ok () := by
            intro hok2
            have := (forRows_ok_iff _ c2).mp hok2 row hrow
            rw [connectProcess, if_pos hlen] at this
            exact Except.noConfusion this
          rcases except_ok_or_error (forRows (connectProcess P D) c2) with hok2 | ⟨e, herr2⟩
          · exact absurd hok2 hne
          · obtain ⟨row', hrow', hfr'⟩ := forRows_error_mem _ c2 _ herr2
            have := (connectProcess_error_iff P D row' _ (hSingle row' hrow')).mp hfr'
            exact ⟨_, by rw [herr2, this.2]⟩
      · rw [herr]
        obtain ⟨row, hrow, hfr⟩ := forRows_error_mem _ c1 _ herr
        have hre := (connectSource_error_iff P row e).mp hfr
        constructor
        · intro _
          exact Or.inr (Or.inr (Or.inl ⟨row, hrow, hre.1⟩))
        · intro _
          exact ⟨_, by rw [hre.2]⟩

theorem build_network_model_runtime_error_iff_witness :
    (0 < 1) ∧
    ((∃ m, build_network_model 1 1 1 [[1]] [[1, 0]] = .error (.runtimeError m)) ↔
      (([[(1 : ℚ)]].length ≠ 1) ∨ ([[(1 : ℚ), 0]].length ≠ 1) ∨
        (∃ row ∈ [[(1 : ℚ)]], 1 < row.length) ∨
        (∃ row ∈ [[(1 : ℚ), 0]], 1 + 1 < row.length))) :=
  ⟨by norm_num,
    build_network_model_runtime_error_iff 1 1 1 [[1]] [[1, 0]] (by norm_num)
      (by intro row hrow h1
          simp only [List.mem_singleton] at hrow
          subst hrow
          rfl)⟩

theorem nowInv_of_none (s : SimState) (h : s.nowEvent = none) : NowInv s := by
  intro e he
  rw [h] at he
  exact Option.noConfusion he

theorem add_event_time (s : SimState) (e : Event) : (add_event s e).time = s.time := by
  unfold add_event
  split <;> rfl

theorem remove_event_time (s : SimState) (e : Event) :
    (remove_event s e).1.time = s.time := by
  rcases s with ⟨t, evs, nowE, cnt, rem⟩
  cases nowE with
  | none => cases hr : listRemove evs e <;> simp [remove_event, hr]
  | some nv =>
    by_cases hid : nv.id = e.id
    · simp [remove_event, hid]
    · cases hr : listRemove evs e <;> simp [remove_event, hid, hr]

theorem execAction_time (s : SimState) (a : Action) : (execAction s a).time = s.time := by
  cases a with
  | schedule e => exact add_event_time s e
  | markRemoved i => rfl
  | removeEvent e => exact remove_event_time s e

theorem foldl_execAction_time (actions : List Action) :
    ∀ s : SimState, (actions.foldl execAction s).time = s.time := by
  induction actions with
  | nil => intro s; rfl
  | cons a rest ih => intro s; rw [List.foldl_cons, ih, execAction_time]

theorem add_event_nowInv (s : SimState) (e : Event) (h : NowInv s) :
    NowInv (add_event s e) := by
  unfold add_event
  split
  · rename_i hc
    intro e' he'
    cases he'
    exact hc.1
  · intro e' he'
    exact h e' he'

theorem remove_event_nowInv (s : SimState) (e : Event) (h : NowInv s) :
    NowInv (remove_event s e).1 := by
  rcases s with ⟨t, evs, nowE, cnt, rem⟩
  cases nowE with
  | none =>
    cases hr : listRemove evs e <;>
      [skip; skip] <;> simp only [remove_event, hr] <;> exact nowInv_of_none _ rfl
  | some nv =>
    by_cases hid : nv.id = e.id
    · simp only [remove_event, hid, if_pos]
      exact nowInv_of_none _ rfl
    · cases hr : listRemove evs e with
      | none =>
        simp only [remove_event, hid, if_neg, not_false_iff, hr]
        exact h
      | some l =>
        simp only [remove_event, hid, if_neg, not_false_iff, hr]
        intro e' he'
        exact h e' he'

theorem execAction_nowInv (s : SimState) (a : Action) (h : NowInv s) :
    NowInv (execAction s a) := by
  cases a with
  | schedule e => exact add_event_nowInv s e h
  | markRemoved i => intro e' he'; exact h e' he'
  | removeEvent e => exact remove_event_nowInv s e h

theorem foldl_execAction_nowInv (actions : List Action) :
    ∀ s : SimState, NowInv s → NowInv (actions.foldl execAction s) := by
  induction actions with
  | nil => intro s h; exact h
  | cons a rest ih => intro s h; exact ih _ (execAction_nowInv s a h)

/-- C3: In every run of `Simulator.run`, the sequence of scheduled times of
the events actually fired is monotone non-decreasing (prefixed by the
starting clock value), and the simulator clock never decreases, for every
starting state in which a now-slot event carries the current time
(which `add_event` guarantees), every handler, and every fuel — also for
events dispatched through the now-event slot, which bypasses the sorted
pending list. -/
theorem run_time_monotone (handler : Handler) :
    ∀ (fuel : Nat) (s : SimState), NowInv s →
      List.Chain' (fun a b => a ≤ b)
        (s.time :: ((runAux handler fuel s).1.map Event.time)) ∧
      s.time ≤ ((runAux handler fuel s).2.1).time := by
  intro fuel
  induction fuel with
  | zero =>
    intro s _
    exact ⟨List.chain'_singleton _, le_refl _⟩
  | succ fuel ih =>
    intro s hInv
    rcases s with ⟨t, evs, nowE, cnt, rem⟩
    cases nowE with
    | some nv =>
      have hnv : nv.time = t := hInv nv rfl
      by_cases hrem : nv.id ∈ rem
      · have hstep : runAux handler (fuel + 1) ⟨t, evs, some nv, cnt, rem⟩ =
            runAux handler fuel ⟨t, evs, none, cnt, rem⟩ := by
          simp [runAux, pop_event, hrem]
        rw [hstep]
        exact ih _ (nowInv_of_none ⟨t, evs, none, cnt, rem⟩ rfl)
      · have hstep : runAux handler (fuel + 1) ⟨t, evs, some nv, cnt, rem⟩ =
            (nv :: (runAux handler fuel
              { (handler nv.id ⟨t, evs, none, cnt, rem⟩).foldl execAction
                  ⟨t, evs, none, cnt, rem⟩ with
                eventCount := ((handler nv.id ⟨t, evs, none, cnt, rem⟩).foldl execAction
                  ⟨t, evs, none, cnt, rem⟩).eventCount + 1 }).1,
             (runAux handler fuel
              { (handler nv.id ⟨t, evs, none, cnt, rem⟩).foldl execAction
                  ⟨t, evs, none, cnt, rem⟩ with
                eventCount := ((handler nv.id ⟨t, evs, none, cnt, rem⟩).foldl execAction
                  ⟨t, evs, none, cnt, rem⟩).eventCount + 1 }).2) := by
          simp [runAux, pop_event, hrem]
        rw [hstep]
        have htime3 : ({ (handler nv.id ⟨t, evs, none, cnt, rem⟩).foldl execAction
            ⟨t, evs, none, cnt, rem⟩ with
          eventCount := ((handler nv.id ⟨t, evs, none, cnt, rem⟩).foldl execAction
            ⟨t, evs, none, cnt, rem⟩).eventCount + 1 } : SimState).time = t := by
          show ((handler nv.id ⟨t, evs, none, cnt, rem⟩).foldl execAction
            ⟨t, evs, none, cnt, rem⟩).time = t
          rw [foldl_execAction_time]
        have hInv3 : NowInv { (handler nv.id ⟨t, evs, none, cnt, rem⟩).foldl execAction
            ⟨t, evs, none, cnt, rem⟩ with
          eventCount := ((handler nv.id ⟨t, evs, none, cnt, rem⟩).foldl execAction
            ⟨t, evs, none, cnt, rem⟩).eventCount + 1 } := by
          intro e' he'
          exact foldl_execAction_nowInv _ _
            (nowInv_of_none ⟨t, evs, none, cnt, rem⟩ rfl) e' he'
        obtain ⟨ihc, iht⟩ := ih _ hInv3
        rw [htime3] at ihc iht
        constructor
        · rw [List.map_cons, List.chain'_cons]
          exact ⟨le_of_eq hnv.symm, hnv ▸ ihc⟩
        · exact iht
    | none =>
      cases evs with
      | nil =>
        have hstep : runAux handler (fuel + 1) ⟨t, [], none, cnt, rem⟩ =
            ([], ⟨t, [], none, cnt, rem⟩, .finished) := rfl
        rw [hstep]
        exact ⟨List.chain'_singleton _, le_refl _⟩
      | cons x rest =>
        by_cases hrem : x.id ∈ rem
        · have hstep : runAux handler (fuel + 1) ⟨t, x :: rest, none, cnt, rem⟩ =
              runAux handler fuel ⟨t, rest, none, cnt, rem⟩ := by
            simp [runAux, pop_event, hrem]
          rw [hstep]
          exact ih _ (nowInv_of_none ⟨t, rest, none, cnt, rem⟩ rfl)
        · by_cases htime : t ≤ x.time
          · have hstep : runAux handler (fuel + 1) ⟨t, x :: rest, none, cnt, rem⟩ =
                (x :: (runAux handler fuel
                  { (handler x.id ⟨x.time, rest, none, cnt, rem⟩).foldl execAction
                      ⟨x.time, rest, none, cnt, rem⟩ with
                    eventCount := ((handler x.id ⟨x.time, rest, none, cnt, rem⟩).foldl
                      execAction ⟨x.time, rest, none, cnt, rem⟩).eventCount + 1 }).1,
                 (runAux handler fuel
                  { (handler x.id ⟨x.time, rest, none, cnt, rem⟩).foldl execAction
                      ⟨x.time, rest, none, cnt, rem⟩ with
                    eventCount := ((handler x.id ⟨x.time, rest, none, cnt, rem⟩).foldl
                      execAction ⟨x.time, rest, none, cnt, rem⟩).eventCount + 1 }).2) := by
              simp [runAux, pop_event, hrem, htime]
            rw [hstep]
            have htime3 : ({ (handler x.id ⟨x.time, rest, none, cnt, rem⟩).foldl execAction
                ⟨x.time, rest, none, cnt, rem⟩ with
              eventCount := ((handler x.id ⟨x.time, rest, none, cnt, rem⟩).foldl
                execAction ⟨x.time, rest, none, cnt, rem⟩).eventCount + 1 } : SimState).time
                = x.time := by
              show ((handler x.id ⟨x.time, rest, none, cnt, rem⟩).foldl execAction
                ⟨x.time, rest, none, cnt, rem⟩).time = x.time
              rw [foldl_execAction_time]
            have hInv3 : NowInv { (handler x.id ⟨x.time, rest, none, cnt, rem⟩).foldl
                execAction ⟨x.time, rest, none, cnt, rem⟩ with
              eventCount := ((handler x.id ⟨x.time, rest, none, cnt, rem⟩).foldl
                execAction ⟨x.time, rest, none, cnt, rem⟩).eventCount + 1 } := by
              intro e' he'
              exact foldl_execAction_nowInv _ _
                (nowInv_of_none ⟨x.time, rest, none, cnt, rem⟩ rfl) e' he'
            obtain ⟨ihc, iht⟩ := ih _ hInv3
            rw [htime3] at ihc iht
            constructor
            · rw [List.map_cons, List.chain'_cons]
              exact ⟨htime, ihc⟩
            · exact le_trans htime iht
          · have hstep : runAux handler (fuel + 1) ⟨t, x :: rest, none, cnt, rem⟩ =
                ([], ⟨t, x :: rest, none, cnt, rem⟩, .aborted) := by
              simp [runAux, pop_event, hrem, htime]
            rw [hstep]
            exact ⟨List.chain'_singleton _, le_refl _⟩

theorem evMatches_true_iff (e x : Event) :
    evMatches e x = true ↔ (x.id = e.id ∨ x.time = e.time) := by
  simp [evMatches]

theorem evMatches_self (e : Event) : evMatches e e = true := by
  simp [evMatches]

theorem insort_split (e : Event) (l : List Event) :
    ∃ u v, l = u ++ v ∧ insort l e = u ++ e :: v ∧
      (∀ x ∈ u, ¬ e.time < x.time) ∧ (∀ y, v.head? = some y → e.time < y.time) := by
  induction l with
  | nil => exact ⟨[], [], rfl, rfl, by simp, by simp⟩
  | cons x xs ih =>
    by_cases h : e.time < x.time
    · refine ⟨[], x :: xs, rfl, by simp [insort, h], by simp, ?_⟩
      intro y hy
      rw [List.head?_cons] at hy
      cases hy
      exact h
    · obtain ⟨u, v, hl, hins, hu, hv⟩ := ih
      refine ⟨x :: u, v, by rw [List.cons_append, hl], ?_, ?_, hv⟩
      · rw [List.cons_append, ← hins]
        simp [insort, h]
      · intro z hz
        rcases List.mem_cons.mp hz with hz | hz
        · subst hz; exact h
        · exact hu z hz

theorem listAdd_split (e : Event) (l : List Event) :
    ∃ u v, l = u ++ v ∧ listAdd l e = u ++ e :: v := by
  cases l with
  | nil => exact ⟨[], [], rfl, rfl⟩
  | cons x xs =>
    by_cases hfront : e.time < x.time
    · exact ⟨[], x :: xs, rfl, by simp [listAdd, hfront]⟩
    · by_cases hback : ((x :: xs).getLast (List.cons_ne_nil x xs)).time < e.time
      · exact ⟨x :: xs, [], by simp, by simp [listAdd, hfront, hback]⟩
      · obtain ⟨u, v, hl, hins, _, _⟩ := insort_split e (x :: xs)
        exact ⟨u, v, hl, by rw [listAdd, if_neg hfront, if_neg hback]; exact hins⟩

theorem listAdd_mem_self (e : Event) (l : List Event) : e ∈ listAdd l e := by
  obtain ⟨u, v, _, hadd⟩ := listAdd_split e l
  rw [hadd]
  simp

theorem listAdd_mem_of_mem (e x : Event) (l : List Event) (h : x ∈ l) :
    x ∈ listAdd l e := by
  obtain ⟨u, v, hl, hadd⟩ := listAdd_split e l
  rw [hadd]
  rw [hl] at h
  rcases List.mem_append.mp h with h | h
  · exact List.mem_append.mpr (Or.inl h)
  · exact List.mem_append.mpr (Or.inr (List.mem_cons_of_mem e h))

theorem timeSorted_le_getLast (l : List Event) (h : TimeSorted l) (hne : l ≠ []) :
    ∀ x ∈ l, x.time ≤ (l.getLast hne).time := by
  induction l with
  | nil => exact absurd rfl hne
  | cons a as ih =>
    intro x hx
    cases as with
    | nil =>
      rcases List.mem_singleton.mp hx with hx
      subst hx
      exact le_refl _
    | cons b bs =>
      rw [List.getLast_cons (List.cons_ne_nil b bs)]
      rcases List.mem_cons.mp hx with hx | hx
      · subst hx
        refine le_trans (List.rel_of_sorted_cons h b (List.mem_cons_self b bs)) ?_
        exact ih h.of_cons (List.cons_ne_nil b bs) b (List.mem_cons_self b bs)
      · exact ih h.of_cons (List.cons_ne_nil b bs) x hx

theorem timeSorted_append_right (u v : List Event) (h : TimeSorted (u ++ v)) :
    TimeSorted v :=
  (List.pairwise_append.mp h).2.1

theorem listAdd_split_sorted (e : Event) (l : List Event) (hs : TimeSorted l) :
    ∃ u v, l = u ++ v ∧ listAdd l e = u ++ e :: v ∧
      (∀ x ∈ u, x.time ≤ e.time) ∧ (∀ y ∈ v, e.time < y.time) := by
  cases l with
  | nil => exact ⟨[], [], rfl, rfl, by simp, by simp⟩
  | cons x xs =>
    by_cases hfront : e.time < x.time
    · refine ⟨[], x :: xs, rfl, by simp [listAdd, hfront], by simp, ?_⟩
      intro y hy
      rcases List.mem_cons.mp hy with hy | hy
      · subst hy; exact hfront
      · exact lt_of_lt_of_le hfront (List.rel_of_sorted_cons hs y hy)
    · by_cases hback : ((x :: xs).getLast (List.cons_ne_nil x xs)).time < e.time
      · refine ⟨x :: xs, [], by simp, by simp [listAdd, hfront, hback], ?_, by simp⟩
        intro z hz
        exact le_of_lt (lt_of_le_of_lt
          (timeSorted_le_getLast (x :: xs) hs (List.cons_ne_nil x xs) z hz) hback)
      · obtain ⟨u, v, hl, hins, hu, hv⟩ := insort_split e (x :: xs)
        refine ⟨u, v, hl, by rw [listAdd, if_neg hfront, if_neg hback]; exact hins, ?_, ?_⟩
        · intro z hz
          exact le_of_not_lt (hu z hz)
        · intro y hy
          cases v with
          | nil => exact absurd hy (List.not_mem_nil y)
          | cons y0 v' =>
            have hy0 : e.time < y0.time := hv y0 (by rw [List.head?_cons])
            rcases List.mem_cons.mp hy with hy | hy
            · subst hy; exact hy0
            · have hsv : TimeSorted (y0 :: v') := by
                rw [hl] at hs
                exact timeSorted_append_right u _ hs
              exact lt_of_lt_of_le hy0 (List.rel_of_sorted_cons hsv y hy)

theorem listAdd_sorted (e : Event) (l : List Event) (hs : TimeSorted l) :
    TimeSorted (listAdd l e) := by
  obtain ⟨u, v, hl, hadd, hu, hv⟩ := listAdd_split_sorted e l hs
  rw [hadd]
  rw [hl] at hs
  obtain ⟨hsu, hsv, huv⟩ := List.pairwise_append.mp hs
  refine List.pairwise_append.mpr ⟨hsu, ?_, ?_⟩
  · exact List.pairwise_cons.mpr ⟨fun y hy => le_of_lt (hv y hy), hsv⟩
  · intro a ha b hb
    rcases List.mem_cons.mp hb with hb | hb
    · subst hb; exact hu a ha
    · exact huv a ha b hb

theorem listRemove_split (e : Event) (l l' : List Event)
    (h : listRemove l e = some l') :
    ∃ u z v, l = u ++ z :: v ∧ l' = u ++ v ∧ evMatches e z = true ∧
      ∀ x ∈ u, evMatches e x = false := by
  induction l generalizing l' with
  | nil => exact absurd h (by simp [listRemove])
  | cons x xs ih =>
    by_cases hm : evMatches e x
    · rw [listRemove, if_pos hm] at h
      cases h
      exact ⟨[], x, xs, rfl, rfl, hm, by simp⟩
    · rw [listRemove, if_neg hm] at h
      cases hr : listRemove xs e with
      | none => rw [hr] at h; exact absurd h (by simp)
      | some l2 =>
        rw [hr] at h
        simp only [Option.map_some', Option.some.injEq] at h
        subst h
        obtain ⟨u, z, v, hxs, hl2, hz, hu⟩ := ih l2 hr
        refine ⟨x :: u, z, v, by rw [List.cons_append, hxs], ?_, hz, ?_⟩
        · rw [hl2, List.cons_append]
        · intro y hy
          rcases List.mem_cons.mp hy with hy | hy
          · subst hy; exact Bool.of_not_eq_true hm
          · exact hu y hy

theorem listRemove_sorted (e : Event) (l l' : List Event) (hs : TimeSorted l)
    (h : listRemove l e = some l') : TimeSorted l' := by
  obtain ⟨u, z, v, hl, hl', _, _⟩ := listRemove_split e l l' h
  subst hl hl'
  obtain ⟨hsu, hsv, huv⟩ := List.pairwise_append.mp hs
  exact List.pairwise_append.mpr
    ⟨hsu, hsv.of_cons, fun a ha b hb => huv a ha b (List.mem_cons_of_mem z hb)⟩

theorem listRemove_first_match (e : Event) (u v : List Event)
    (hu : ∀ x ∈ u, evMatches e x = false) :
    listRemove (u ++ e :: v) e = some (u ++ v) := by
  induction u with
  | nil => simp [listRemove, evMatches_self]
  | cons x u' ih =>
    have hx : evMatches e x = false := hu x (List.mem_cons_self x u')
    rw [List.cons_append, listRemove, if_neg (by simp [hx]),
      ih (fun y hy => hu y (List.mem_cons_of_mem x hy)), Option.map_some']
    rw [List.cons_append]

/-- C5 counterexample: with two distinct pending events at the same time 5,
`remove_event` on the later-inserted one (id 2) deletes the earlier one
(id 1) instead — `Event.__eq__` compares times only, so `list.remove` hits
the first time-equal entry.  The claim that every pending `f ≠ e` stays in
the pending set is false. -/
theorem remove_event_hits_wrong_event :
    ((⟨1, 5⟩ : Event) ≠ ⟨2, 5⟩) ∧
    (⟨1, 5⟩ : Event) ∈ (⟨0, [⟨1, 5⟩, ⟨2, 5⟩], none, 0, ∅⟩ : SimState).events ∧
    (remove_event ⟨0, [⟨1, 5⟩, ⟨2, 5⟩], none, 0, ∅⟩ ⟨2, 5⟩).1.events = [⟨2, 5⟩] ∧
    (⟨1, 5⟩ : Event) ∉ (remove_event ⟨0, [⟨1, 5⟩, ⟨2, 5⟩], none, 0, ∅⟩ ⟨2, 5⟩).1.events := by
  decide

/-- C5 amended: `remove_event(e)` clears the now-slot when `e` is the slot
event (object identity); otherwise it deletes the *first* pending event
that matches `e` by identity or by scheduled time (`Event.__eq__` compares
times only).  Hence every pending event whose id and time both differ from
`e`'s survives, and the deleted event is `e` itself exactly when no
earlier-inserted pending event shares `e`'s time. -/
theorem remove_event_frame (s : SimState) (e : Event) :
    (∀ f ∈ s.events, f.id ≠ e.id → f.time ≠ e.time →
      f ∈ (remove_event s e).1.events) ∧
    (∀ u v, s.nowEvent = none → s.events = u ++ e :: v →
      (∀ x ∈ u, x.id ≠ e.id ∧ x.time ≠ e.time) →
      (remove_event s e).1.events = u ++ v) := by
  constructor
  · intro f hf hid htime
    rcases s with ⟨t, evs, nowE, cnt, rem⟩
    have hfr : ∀ l', listRemove evs e = some l' → f ∈ l' := by
      intro l' hl'
      obtain ⟨u, z, v, hl, hl2, hz, _⟩ := listRemove_split e evs l' hl'
      have hfz : f ≠ z := by
        intro hfz
        subst hfz
        rcases (evMatches_true_iff e f).mp hz with h | h
        · exact hid h
        · exact htime h
      subst hl hl2
      rcases List.mem_append.mp hf with h | h
      · exact List.mem_append.mpr (Or.inl h)
      · rcases List.mem_cons.mp h with h | h
        · exact absurd h hfz
        · exact List.mem_append.mpr (Or.inr h)
    cases nowE with
    | none =>
      cases hr : listRemove evs e with
      | none => simpa [remove_event, hr] using hf
      | some l' => simpa [remove_event, hr] using hfr l' hr
    | some nv =>
      by_cases hnv : nv.id = e.id
      · simpa [remove_event, hnv] using hf
      · cases hr : listRemove evs e with
        | none => simpa [remove_event, hnv, hr] using hf
        | some l' => simpa [remove_event, hnv, hr] using hfr l' hr
  · intro u v hnow hevs hu
    rcases s with ⟨t, evs, nowE, cnt, rem⟩
    simp only at hnow hevs
    subst hnow hevs
    have hr : listRemove (u ++ e :: v) e = some (u ++ v) := by
      refine listRemove_first_match e u v ?_
      intro x hx
      have := hu x hx
      rw [evMatches]
      simp only [Bool.or_eq_false_iff, beq_eq_false_iff_ne, ne_eq]
      exact ⟨this.1, this.2⟩
    simp [remove_event, hr]

theorem remove_event_frame_witness :
    (⟨1, 3⟩ : Event) ∈
      (remove_event ⟨0, [⟨1, 3⟩, ⟨2, 5⟩], none, 0, ∅⟩ ⟨2, 5⟩).1.events ∧
    (remove_event ⟨0, [⟨1, 3⟩, ⟨2, 5⟩], none, 0, ∅⟩ ⟨2, 5⟩).1.events = [⟨1, 3⟩] := by
  constructor
  · exact (remove_event_frame ⟨0, [⟨1, 3⟩, ⟨2, 5⟩], none, 0, ∅⟩ ⟨2, 5⟩).1
      ⟨1, 3⟩ (by simp) (by decide) (by decide)
  · exact (remove_event_frame ⟨0, [⟨1, 3⟩, ⟨2, 5⟩], none, 0, ∅⟩ ⟨2, 5⟩).2
      [⟨1, 3⟩] [] rfl rfl (by decide)

/-- C6 counterexample: with the clock at 5, scheduling an event at time 3
is *not* rejected: `add_event` has no check and returns normally, inserting
the stale event into the pending list; the failure only occurs later, when
`__pop_event` reaches the un-removed stale event and its assertion fires
(modelled as `pop_event = none`). -/
theorem add_event_past_accepted :
    ((⟨0, 3⟩ : Event).time < (⟨5, [], none, 0, ∅⟩ : SimState).time) ∧
    add_event ⟨5, [], none, 0, ∅⟩ ⟨0, 3⟩ = ⟨5, [⟨0, 3⟩], none, 0, ∅⟩ ∧
    pop_event ⟨5, [⟨0, 3⟩], none, 0, ∅⟩ = none := by
  refine ⟨by norm_num, by decide, by decide⟩

/-- C6 amended: scheduling an event with `t < now` is accepted: `add_event`
performs no check, leaves the now-slot unchanged and inserts the event into
the pending list.  The violation is detected only if and when that event is
popped while not removed — then `__pop_event`'s assertion
`time <= event.time` fails and aborts the run; a stale event that was
removed first is popped without any error. -/
theorem add_event_past_detected_at_pop (s : SimState) (e : Event)
    (h : e.time < s.time) :
    ((add_event s e).nowEvent = s.nowEvent ∧
     (add_event s e).events = listAdd s.events e ∧
     e ∈ (add_event s e).events) ∧
    (∀ (s' : SimState) (rest : List Event), s'.nowEvent = none →
      s'.events = e :: rest → e.id ∉ s'.removed → e.time < s'.time →
      pop_event s' = none) ∧
    (∀ (s' : SimState) (rest : List Event), s'.nowEvent = none →
      s'.events = e :: rest → e.id ∈ s'.removed →
      pop_event s' = some (some e, { s' with events := rest })) := by
  have hne : ¬(e.time = s.time ∧ s.nowEvent = none) := fun hc => absurd hc.1 (ne_of_lt h)
  refine ⟨⟨?_, ?_, ?_⟩, ?_, ?_⟩
  · rw [add_event, if_neg hne]
  · rw [add_event, if_neg hne]
  · rw [add_event, if_neg hne]
    exact listAdd_mem_self e s.events
  · intro s' rest hnow hevs hrem htime
    rcases s' with ⟨t', evs', nowE', cnt', rem'⟩
    simp only at hnow hevs
    subst hnow hevs
    simp only [pop_event]
    rw [if_neg hrem, if_neg (not_le_of_lt htime)]
  · intro s' rest hnow hevs hrem
    rcases s' with ⟨t', evs', nowE', cnt', rem'⟩
    simp only at hnow hevs
    subst hnow hevs
    simp only [pop_event]
    rw [if_pos hrem]

theorem add_event_past_detected_at_pop_witness :
    ((⟨0, 3⟩ : Event).time < (⟨5, [], none, 0, ∅⟩ : SimState).time) ∧
    ((add_event ⟨5, [], none, 0, ∅⟩ ⟨0, 3⟩).nowEvent = none ∧
      (add_event ⟨5, [], none, 0, ∅⟩ ⟨0, 3⟩).events = listAdd [] ⟨0, 3⟩ ∧
      (⟨0, 3⟩ : Event) ∈ (add_event ⟨5, [], none, 0, ∅⟩ ⟨0, 3⟩).events) ∧
    pop_event ⟨5, [⟨0, 3⟩], none, 0, ∅⟩ = none := by
  have h := add_event_past_detected_at_pop ⟨5, [], none, 0, ∅⟩ ⟨0, 3⟩ (by norm_num)
  exact ⟨by norm_num, h.1, h.2.1 ⟨5, [⟨0, 3⟩], none, 0, ∅⟩ [] rfl rfl (by simp) (by norm_num)⟩

theorem run_time_monotone_witness :
    NowInv ⟨0, [⟨0, 1⟩, ⟨1, 2⟩], none, 0, ∅⟩ ∧
    (List.Chain' (fun a b => a ≤ b)
      ((⟨0, [⟨0, 1⟩, ⟨1, 2⟩], none, 0, ∅⟩ : SimState).time ::
        ((runAux (fun _ _ => []) 5 ⟨0, [⟨0, 1⟩, ⟨1, 2⟩], none, 0, ∅⟩).1.map Event.time)) ∧
    (⟨0, [⟨0, 1⟩, ⟨1, 2⟩], none, 0, ∅⟩ : SimState).time ≤
      ((runAux (fun _ _ => []) 5 ⟨0, [⟨0, 1⟩, ⟨1, 2⟩], none, 0, ∅⟩).2.1).time) :=
  ⟨nowInv_of_none ⟨0, [⟨0, 1⟩, ⟨1, 2⟩], none, 0, ∅⟩ rfl,
   run_time_monotone (fun _ _ => []) 5 ⟨0, [⟨0, 1⟩, ⟨1, 2⟩], none, 0, ∅⟩
     (nowInv_of_none ⟨0, [⟨0, 1⟩, ⟨1, 2⟩], none, 0, ∅⟩ rfl)⟩

theorem add_event_removed (s : SimState) (e : Event) :
    (add_event s e).removed = s.removed := by
  unfold add_event
  split <;> rfl

theorem remove_event_removed (s : SimState) (e : Event) :
    (remove_event s e).1.removed = s.removed := by
  rcases s with ⟨t, evs, nowE, cnt, rem⟩
  cases nowE with
  | none => cases hr : listRemove evs e <;> simp [remove_event, hr]
  | some nv =>
    by_cases hid : nv.id = e.id
    · simp [remove_event, hid]
    · cases hr : listRemove evs e <;> simp [remove_event, hid, hr]

theorem execAction_removed_mono (s : SimState) (a : Action) (i : Nat)
    (h : i ∈ s.removed) : i ∈ (execAction s a).removed := by
  cases a with
  | schedule e => rw [execAction, add_event_removed]; exact h
  | markRemoved j => exact Finset.mem_insert_of_mem h
  | removeEvent e => rw [execAction, remove_event_removed]; exact h

theorem foldl_execAction_removed_mono (actions : List Action) :
    ∀ (s : SimState) (i : Nat), i ∈ s.removed →
      i ∈ (actions.foldl execAction s).removed := by
  induction actions with
  | nil => intro s i h; exact h
  | cons a rest ih => intro s i h; exact ih _ i (execAction_removed_mono s a i h)

theorem add_event_eventCount (s : SimState) (e : Event) :
    (add_event s e).eventCount = s.eventCount := by
  unfold add_event
  split <;> rfl

theorem execAction_eventCount (s : SimState) (a : Action) :
    (execAction s a).eventCount = s.eventCount := by
  cases a with
  | schedule e => exact add_event_eventCount s e
  | markRemoved j => rfl
  | removeEvent e =>
    rcases s with ⟨t, evs, nowE, cnt, rem⟩
    cases nowE with
    | none => cases hr : listRemove evs e <;> simp [execAction, remove_event, hr]
    | some nv =>
      by_cases hid : nv.id = e.id
      · simp [execAction, remove_event, hid]
      · cases hr : listRemove evs e <;> simp [execAction, remove_event, hid, hr]

theorem foldl_execAction_eventCount (actions : List Action) :
    ∀ s : SimState, (actions.foldl execAction s).eventCount = s.eventCount := by
  induction actions with
  | nil => intro s; rfl
  | cons a rest ih => intro s; rw [List.foldl_cons, ih, execAction_eventCount]

theorem runAux_fired_id_not_marked (handler : Handler) :
    ∀ (fuel : Nat) (s : SimState) (i : Nat), i ∈ s.removed →
      ∀ x ∈ (runAux handler fuel s).1, x.id ≠ i := by
  intro fuel
  induction fuel with
  | zero => intro s i _ x hx; exact absurd hx (List.not_mem_nil x)
  | succ fuel ih =>
    intro s i hi
    rcases s with ⟨t, evs, nowE, cnt, rem⟩
    cases nowE with
    | some nv =>
      by_cases hrem : nv.id ∈ rem
      · have hstep : runAux handler (fuel + 1) ⟨t, evs, some nv, cnt, rem⟩ =
            runAux handler fuel ⟨t, evs, none, cnt, rem⟩ := by
          simp [runAux, pop_event, hrem]
        rw [hstep]
        exact ih _ i hi
      · have hstep : (runAux handler (fuel + 1) ⟨t, evs, some nv, cnt, rem⟩).1 =
            nv :: (runAux handler fuel
              { (handler nv.id ⟨t, evs, none, cnt, rem⟩).foldl execAction
                  ⟨t, evs, none, cnt, rem⟩ with
                eventCount := ((handler nv.id ⟨t, evs, none, cnt, rem⟩).foldl execAction
                  ⟨t, evs, none, cnt, rem⟩).eventCount + 1 }).1 := by
          simp [runAux, pop_event, hrem]
        rw [hstep]
        intro x hx
        rcases List.mem_cons.mp hx with hx | hx
        · subst hx
          intro hxi
          rw [hxi] at hrem
          exact hrem hi
        · refine ih _ i ?_ x hx
          exact foldl_execAction_removed_mono _ _ i hi
    | none =>
      cases evs with
      | nil =>
        intro x hx
        exact absurd hx (List.not_mem_nil x)
      | cons y rest =>
        by_cases hrem : y.id ∈ rem
        · have hstep : runAux handler (fuel + 1) ⟨t, y :: rest, none, cnt, rem⟩ =
              runAux handler fuel ⟨t, rest, none, cnt, rem⟩ := by
            simp [runAux, pop_event, hrem]
          rw [hstep]
          exact ih _ i hi
        · by_cases htime : t ≤ y.time
          · have hstep : (runAux handler (fuel + 1) ⟨t, y :: rest, none, cnt, rem⟩).1 =
                y :: (runAux handler fuel
                  { (handler y.id ⟨y.time, rest, none, cnt, rem⟩).foldl execAction
                      ⟨y.time, rest, none, cnt, rem⟩ with
                    eventCount := ((handler y.id ⟨y.time, rest, none, cnt, rem⟩).foldl
                      execAction ⟨y.time, rest, none, cnt, rem⟩).eventCount + 1 }).1 := by
              simp [runAux, pop_event, hrem, htime]
            rw [hstep]
            intro x hx
            rcases List.mem_cons.mp hx with hx | hx
            · subst hx
              intro hxi
              rw [hxi] at hrem
              exact hrem hi
            · refine ih _ i ?_ x hx
              exact foldl_execAction_removed_mono _ _ i hi
          · have hstep : runAux handler (fuel + 1) ⟨t, y :: rest, none, cnt, rem⟩ =
                ([], ⟨t, y :: rest, none, cnt, rem⟩, .aborted) := by
              simp [runAux, pop_event, hrem, htime]
            rw [hstep]
            intro x hx
            exact absurd hx (List.not_mem_nil x)

theorem runAux_eventCount (handler : Handler) :
    ∀ (fuel : Nat) (s : SimState),
      ((runAux handler fuel s).2.1).eventCount =
        s.eventCount + (runAux handler fuel s).1.length := by
  intro fuel
  induction fuel with
  | zero => intro s; rfl
  | succ fuel ih =>
    intro s
    rcases s with ⟨t, evs, nowE, cnt, rem⟩
    cases nowE with
    | some nv =>
      by_cases hrem : nv.id ∈ rem
      · have hstep : runAux handler (fuel + 1) ⟨t, evs, some nv, cnt, rem⟩ =
            runAux handler fuel ⟨t, evs, none, cnt, rem⟩ := by
          simp [runAux, pop_event, hrem]
        rw [hstep]
        exact ih _
      · have hstep : runAux handler (fuel + 1) ⟨t, evs, some nv, cnt, rem⟩ =
            (nv :: (runAux handler fuel
              { (handler nv.id ⟨t, evs, none, cnt, rem⟩).foldl execAction
                  ⟨t, evs, none, cnt, rem⟩ with
                eventCount := ((handler nv.id ⟨t, evs, none, cnt, rem⟩).foldl execAction
                  ⟨t, evs, none, cnt, rem⟩).eventCount + 1 }).1,
             (runAux handler fuel
              { (handler nv.id ⟨t, evs, none, cnt, rem⟩).foldl execAction
                  ⟨t, evs, none, cnt, rem⟩ with
                eventCount := ((handler nv.id ⟨t, evs, none, cnt, rem⟩).foldl execAction
                  ⟨t, evs, none, cnt, rem⟩).eventCount + 1 }).2) := by
          simp [runAux, pop_event, hrem]
        rw [hstep]
        have := ih { (handler nv.id ⟨t, evs, none, cnt, rem⟩).foldl execAction
            ⟨t, evs, none, cnt, rem⟩ with
          eventCount := ((handler nv.id ⟨t, evs, none, cnt, rem⟩).foldl execAction
            ⟨t, evs, none, cnt, rem⟩).eventCount + 1 }
        rw [this]
        show _ = cnt + (_ + 1)
        rw [foldl_execAction_eventCount]
        show cnt + 1 + _ = _
        omega
    | none =>
      cases evs with
      | nil => rfl
      | cons y rest =>
        by_cases hrem : y.id ∈ rem
        · have hstep : runAux handler (fuel + 1) ⟨t, y :: rest, none, cnt, rem⟩ =
              runAux handler fuel ⟨t, rest, none, cnt, rem⟩ := by
            simp [runAux, pop_event, hrem]
          rw [hstep]
          exact ih _
        · by_cases htime : t ≤ y.time
          · have hstep : runAux handler (fuel + 1) ⟨t, y :: rest, none, cnt, rem⟩ =
                (y :: (runAux handler fuel
                  { (handler y.id ⟨y.time, rest, none, cnt, rem⟩).foldl execAction
                      ⟨y.time, rest, none, cnt, rem⟩ with
                    eventCount := ((handler y.id ⟨y.time, rest, none, cnt, rem⟩).foldl
                      execAction ⟨y.time, rest, none, cnt, rem⟩).eventCount + 1 }).1,
                 (runAux handler fuel
                  { (handler y.id ⟨y.time, rest, none, cnt, rem⟩).foldl execAction
                      ⟨y.time, rest, none, cnt, rem⟩ with
                    eventCount := ((handler y.id ⟨y.time, rest, none, cnt, rem⟩).foldl
                      execAction ⟨y.time, rest, none, cnt, rem⟩).eventCount + 1 }).2) := by
              simp [runAux, pop_event, hrem, htime]
            rw [hstep]
            have := ih { (handler y.id ⟨y.time, rest, none, cnt, rem⟩).foldl execAction
                ⟨y.time, rest, none, cnt, rem⟩ with
              eventCount := ((handler y.id ⟨y.time, rest, none, cnt, rem⟩).foldl
                execAction ⟨y.time, rest, none, cnt, rem⟩).eventCount + 1 }
            rw [this]
            show _ = cnt + (_ + 1)
            rw [foldl_execAction_eventCount]
            show cnt + 1 + _ = _
            omega
          · have hstep : runAux handler (fuel + 1) ⟨t, y :: rest, none, cnt, rem⟩ =
                ([], ⟨t, y :: rest, none, cnt, rem⟩, .aborted) := by
              simp [runAux, pop_event, hrem, htime]
            rw [hstep]
            rfl

theorem listAdd_mem (e x : Event) (l : List Event) (h : x ∈ listAdd l e) :
    x = e ∨ x ∈ l := by
  obtain ⟨u, v, hl, hadd⟩ := listAdd_split e l
  rw [hadd] at h
  rw [hl]
  rcases List.mem_append.mp h with h | h
  · exact Or.inr (List.mem_append.mpr (Or.inl h))
  · rcases List.mem_cons.mp h with h | h
    · exact Or.inl h
    · exact Or.inr (List.mem_append.mpr (Or.inr h))

theorem listRemove_subset (e : Event) (l l' : List Event)
    (h : listRemove l e = some l') : ∀ x ∈ l', x ∈ l := by
  obtain ⟨u, z, v, hl, hl', _, _⟩ := listRemove_split e l l' h
  subst hl hl'
  intro x hx
  rcases List.mem_append.mp hx with h | h
  · exact List.mem_append.mpr (Or.inl h)
  · exact List.mem_append.mpr (Or.inr (List.mem_cons_of_mem z h))

theorem execAction_stale_comm (i : Nat) (s : SimState) (a : Action) :
    execAction { s with removed := insert i s.removed } a =
      { execAction s a with removed := insert i (execAction s a).removed } := by
  rcases s with ⟨t, evs, nowE, cnt, rem⟩
  cases a with
  | schedule e =>
    show add_event ⟨t, evs, nowE, cnt, insert i rem⟩ e = _
    by_cases hc : e.time = t ∧ nowE = none
    · simp [execAction, add_event, hc]
    · simp [execAction, add_event, hc]
  | markRemoved j =>
    show (⟨t, evs, nowE, cnt, insert j (insert i rem)⟩ : SimState) =
      ⟨t, evs, nowE, cnt, insert i (insert j rem)⟩
    rw [Finset.Insert.comm]
  | removeEvent e =>
    show (remove_event ⟨t, evs, nowE, cnt, insert i rem⟩ e).1 = _
    cases nowE with
    | none => cases hr : listRemove evs e <;> simp [execAction, remove_event, hr]
    | some nv =>
      by_cases hid : nv.id = e.id
      · simp [execAction, remove_event, hid]
      · cases hr : listRemove evs e <;> simp [execAction, remove_event, hid, hr]

theorem foldl_execAction_stale_comm (i : Nat) (actions : List Action) :
    ∀ s : SimState,
      actions.foldl execAction { s with removed := insert i s.removed } =
        { actions.foldl execAction s with
          removed := insert i (actions.foldl execAction s).removed } := by
  induction actions with
  | nil => intro s; rfl
  | cons a rest ih =>
    intro s
    rw [List.foldl_cons, List.foldl_cons, execAction_stale_comm]
    exact ih (execAction s a)

theorem execAction_noIdPending (i : Nat) (s : SimState) (a : Action)
    (h : NoIdPending i s) (ha : ∀ e, a = Action.schedule e → e.id ≠ i) :
    NoIdPending i (execAction s a) := by
  cases a with
  | schedule e =>
    have he : e.id ≠ i := ha e rfl
    show NoIdPending i (add_event s e)
    unfold add_event
    split
    · refine ⟨h.1, ?_⟩
      intro nv hnv
      cases hnv
      exact he
    · refine ⟨?_, h.2⟩
      intro x hx
      rcases listAdd_mem e x s.events hx with hx | hx
      · subst hx; exact he
      · exact h.1 x hx
  | markRemoved j => exact h
  | removeEvent e =>
    rcases s with ⟨t, evs, nowE, cnt, rem⟩
    show NoIdPending i (remove_event ⟨t, evs, nowE, cnt, rem⟩ e).1
    cases nowE with
    | none =>
      cases hr : listRemove evs e with
      | none => simpa [remove_event, hr] using h
      | some l' =>
        simp only [remove_event, hr]
        exact ⟨fun x hx => h.1 x (listRemove_subset e evs l' hr x hx), h.2⟩
    | some nv =>
      by_cases hid : nv.id = e.id
      · simp only [remove_event, hid, if_pos]
        refine ⟨h.1, ?_⟩
        intro nv' hnv'
        exact Option.noConfusion hnv'
      · cases hr : listRemove evs e with
        | none => simpa [remove_event, hid, hr] using h
        | some l' =>
          simp only [remove_event, hid, if_neg, not_false_iff, hr]
          exact ⟨fun x hx => h.1 x (listRemove_subset e evs l' hr x hx), h.2⟩

theorem foldl_execAction_noIdPending (i : Nat) (actions : List Action) :
    ∀ s : SimState, NoIdPending i s →
      (∀ a ∈ actions, ∀ e, a = Action.schedule e → e.id ≠ i) →
      NoIdPending i (actions.foldl execAction s) := by
  induction actions with
  | nil => intro s h _; exact h
  | cons a rest ih =>
    intro s h hact
    rw [List.foldl_cons]
    exact ih _ (execAction_noIdPending i s a h
      (hact a (List.mem_cons_self a rest)))
      (fun a' ha' => hact a' (List.mem_cons_of_mem a ha'))

theorem runAux_stale_mark (handler : Handler) (i : Nat)
    (hH : HandlerIndep handler)
    (hSched : ∀ j st e, Action.schedule e ∈ handler j st → e.id ≠ i) :
    ∀ (fuel : Nat) (t : ℚ) (evs : List Event) (nowE : Option Event)
      (cnt : Nat) (rem : Finset Nat),
      (∀ x ∈ evs, x.id ≠ i) → (∀ nv, nowE = some nv → nv.id ≠ i) →
      runAux handler fuel ⟨t, evs, nowE, cnt, insert i rem⟩ =
        ((runAux handler fuel ⟨t, evs, nowE, cnt, rem⟩).1,
         { (runAux handler fuel ⟨t, evs, nowE, cnt, rem⟩).2.1 with
           removed := insert i ((runAux handler fuel ⟨t, evs, nowE, cnt, rem⟩).2.1).removed },
         (runAux handler fuel ⟨t, evs, nowE, cnt, rem⟩).2.2) := by
  intro fuel
  induction fuel with
  | zero => intro t evs nowE cnt rem _ _; rfl
  | succ fuel ih =>
    intro t evs nowE cnt rem hev hnv
    cases nowE with
    | some nv =>
      have hnvi : nv.id ≠ i := hnv nv rfl
      by_cases hrem : nv.id ∈ rem
      · have hmem : nv.id ∈ insert i rem := Finset.mem_insert_of_mem hrem
        have hstepA : runAux handler (fuel + 1) ⟨t, evs, some nv, cnt, insert i rem⟩ =
            runAux handler fuel ⟨t, evs, none, cnt, insert i rem⟩ := by
          simp [runAux, pop_event, hmem]
        have hstepB : runAux handler (fuel + 1) ⟨t, evs, some nv, cnt, rem⟩ =
            runAux handler fuel ⟨t, evs, none, cnt, rem⟩ := by
          simp [runAux, pop_event, hrem]
        rw [hstepA, hstepB]
        exact ih t evs none cnt rem hev (fun nv' h => Option.noConfusion h)
      · have hmem : nv.id ∉ insert i rem := by
          rw [Finset.mem_insert]
          push_neg
          exact ⟨hnvi, hrem⟩
        have hact : handler nv.id ⟨t, evs, none, cnt, insert i rem⟩ =
            handler nv.id ⟨t, evs, none, cnt, rem⟩ :=
          hH nv.id _ _ rfl rfl rfl rfl
        have hfold := foldl_execAction_stale_comm i
          (handler nv.id ⟨t, evs, none, cnt, rem⟩) ⟨t, evs, none, cnt, rem⟩
        rcases hS2 : (handler nv.id ⟨t, evs, none, cnt, rem⟩).foldl execAction
            ⟨t, evs, none, cnt, rem⟩ with ⟨t2, evs2, nowE2, cnt2, rem2⟩
        rw [hS2] at hfold
        have hno2 : NoIdPending i ⟨t2, evs2, nowE2, cnt2, rem2⟩ := by
          rw [← hS2]
          exact foldl_execAction_noIdPending i _ _
            ⟨hev, fun nv' h => Option.noConfusion h⟩
            (fun a ha e hae => hSched nv.id _ e (hae ▸ ha))
        have hstepA : runAux handler (fuel + 1) ⟨t, evs, some nv, cnt, insert i rem⟩ =
            (nv :: (runAux handler fuel ⟨t2, evs2, nowE2, cnt2 + 1, insert i rem2⟩).1,
             (runAux handler fuel ⟨t2, evs2, nowE2, cnt2 + 1, insert i rem2⟩).2) := by
          simp [runAux, pop_event, hmem, hact, hfold]
        have hstepB : runAux handler (fuel + 1) ⟨t, evs, some nv, cnt, rem⟩ =
            (nv :: (runAux handler fuel ⟨t2, evs2, nowE2, cnt2 + 1, rem2⟩).1,
             (runAux handler fuel ⟨t2, evs2, nowE2, cnt2 + 1, rem2⟩).2) := by
          simp [runAux, pop_event, hrem, hS2]
        rw [hstepA, hstepB, ih t2 evs2 nowE2 (cnt2 + 1) rem2 hno2.1 hno2.2]
    | none =>
      cases evs with
      | nil => rfl
      | cons y rest =>
        have hyi : y.id ≠ i := hev y (List.mem_cons_self y rest)
        have hev' : ∀ x ∈ rest, x.id ≠ i :=
          fun x hx => hev x (List.mem_cons_of_mem y hx)
        by_cases hrem : y.id ∈ rem
        · have hmem : y.id ∈ insert i rem := Finset.mem_insert_of_mem hrem
          have hstepA : runAux handler (fuel + 1) ⟨t, y :: rest, none, cnt, insert i rem⟩ =
              runAux handler fuel ⟨t, rest, none, cnt, insert i rem⟩ := by
            simp [runAux, pop_event, hmem]
          have hstepB : runAux handler (fuel + 1) ⟨t, y :: rest, none, cnt, rem⟩ =
              runAux handler fuel ⟨t, rest, none, cnt, rem⟩ := by
            simp [runAux, pop_event, hrem]
          rw [hstepA, hstepB]
          exact ih t rest none cnt rem hev' (fun nv' h => Option.noConfusion h)
        · have hmem : y.id ∉ insert i rem := by
            rw [Finset.mem_insert]
            push_neg
            exact ⟨hyi, hrem⟩
          by_cases htime : t ≤ y.time
          · have hact : handler y.id ⟨y.time, rest, none, cnt, insert i rem⟩ =
                handler y.id ⟨y.time, rest, none, cnt, rem⟩ :=
              hH y.id _ _ rfl rfl rfl rfl
            have hfold := foldl_execAction_stale_comm i
              (handler y.id ⟨y.time, rest, none, cnt, rem⟩) ⟨y.time, rest, none, cnt, rem⟩
            rcases hS2 : (handler y.id ⟨y.time, rest, none, cnt, rem⟩).foldl execAction
                ⟨y.time, rest, none, cnt, rem⟩ with ⟨t2, evs2, nowE2, cnt2, rem2⟩
            rw [hS2] at hfold
            have hno2 : NoIdPending i ⟨t2, evs2, nowE2, cnt2, rem2⟩ := by
              rw [← hS2]
              exact foldl_execAction_noIdPending i _ _
                ⟨hev', fun nv' h => Option.noConfusion h⟩
                (fun a ha e hae => hSched y.id _ e (hae ▸ ha))
            have hstepA : runAux handler (fuel + 1) ⟨t, y :: rest, none, cnt, insert i rem⟩ =
                (y :: (runAux handler fuel ⟨t2, evs2, nowE2, cnt2 + 1, insert i rem2⟩).1,
                 (runAux handler fuel ⟨t2, evs2, nowE2, cnt2 + 1, insert i rem2⟩).2) := by
              simp [runAux, pop_event, hmem, htime, hact, hfold]
            have hstepB : runAux handler (fuel + 1) ⟨t, y :: rest, none, cnt, rem⟩ =
                (y :: (runAux handler fuel ⟨t2, evs2, nowE2, cnt2 + 1, rem2⟩).1,
                 (runAux handler fuel ⟨t2, evs2, nowE2, cnt2 + 1, rem2⟩).2) := by
              simp [runAux, pop_event, hrem, htime, hS2]
            rw [hstepA, hstepB, ih t2 evs2 nowE2 (cnt2 + 1) rem2 hno2.1 hno2.2]
          · have hstepA : runAux handler (fuel + 1) ⟨t, y :: rest, none, cnt, insert i rem⟩ =
                ([], ⟨t, y :: rest, none, cnt, insert i rem⟩, .aborted) := by
              simp [runAux, pop_event, hmem, htime]
            have hstepB : runAux handler (fuel + 1) ⟨t, y :: rest, none, cnt, rem⟩ =
                ([], ⟨t, y :: rest, none, cnt, rem⟩, .aborted) := by
              simp [runAux, pop_event, hrem, htime]
            rw [hstepA, hstepB]

/-- C4: For every event on which `remove()` has been called before the
dispatcher pops it, `run()` is never invoked on it (no fired event carries
its id — ids in the removed set stay there, so this holds wherever in the
run the mark happens) and `event_count` is not incremented for it (the
counter advances exactly once per event actually fired); calling `remove()`
twice equals calling it once (same state); and calling it on an event that
is no longer pending — e.g. one that has already fired — does not affect
the rest of the run: same fired trace, same termination, and the same
final state except that the id is recorded as removed (for handlers whose
kernel calls do not read stale removed flags and do not reuse the id). -/
theorem event_remove_semantics (handler : Handler) :
    (∀ (fuel : Nat) (s : SimState) (i : Nat), i ∈ s.removed →
      ∀ x ∈ (runAux handler fuel s).1, x.id ≠ i) ∧
    (∀ (fuel : Nat) (s : SimState),
      ((runAux handler fuel s).2.1).eventCount =
        s.eventCount + (runAux handler fuel s).1.length) ∧
    (∀ (s : SimState) (i : Nat),
      execAction (execAction s (.markRemoved i)) (.markRemoved i) =
        execAction s (.markRemoved i)) ∧
    (∀ (i : Nat), HandlerIndep handler →
      (∀ j st e, Action.schedule e ∈ handler j st → e.id ≠ i) →
      ∀ (fuel : Nat) (t : ℚ) (evs : List Event) (nowE : Option Event)
        (cnt : Nat) (rem : Finset Nat),
        (∀ x ∈ evs, x.id ≠ i) → (∀ nv, nowE = some nv → nv.id ≠ i) →
        runAux handler fuel (execAction ⟨t, evs, nowE, cnt, rem⟩ (.markRemoved i)) =
          ((runAux handler fuel ⟨t, evs, nowE, cnt, rem⟩).1,
           { (runAux handler fuel ⟨t, evs, nowE, cnt, rem⟩).2.1 with
             removed := insert i ((runAux handler fuel ⟨t, evs, nowE, cnt, rem⟩).2.1).removed },
           (runAux handler fuel ⟨t, evs, nowE, cnt, rem⟩).2.2)) := by
  refine ⟨runAux_fired_id_not_marked handler, runAux_eventCount handler, ?_, ?_⟩
  · intro s i
    rcases s with ⟨t, evs, nowE, cnt, rem⟩
    show (⟨t, evs, nowE, cnt, insert i (insert i rem)⟩ : SimState) =
      ⟨t, evs, nowE, cnt, insert i rem⟩
    rw [Finset.insert_idem]
  · intro i hH hSched fuel t evs nowE cnt rem hev hnv
    exact runAux_stale_mark handler i hH hSched fuel t evs nowE cnt rem hev hnv

theorem event_remove_semantics_witness :
    ((3 : Nat) ∈ (⟨0, [⟨3, 1⟩], none, 0, insert 3 ∅⟩ : SimState).removed ∧
     ∀ x ∈ (runAux (fun _ _ => []) 2 ⟨0, [⟨3, 1⟩], none, 0, insert 3 ∅⟩).1, x.id ≠ 3) ∧
    ((runAux (fun _ _ => []) 2 ⟨0, [⟨3, 1⟩], none, 0, insert 3 ∅⟩).2.1.eventCount =
      (⟨0, [⟨3, 1⟩], none, 0, insert 3 ∅⟩ : SimState).eventCount +
        (runAux (fun _ _ => []) 2 ⟨0, [⟨3, 1⟩], none, 0, insert 3 ∅⟩).1.length) ∧
    (execAction (execAction ⟨0, [], none, 0, ∅⟩ (.markRemoved 7)) (.markRemoved 7) =
      execAction ⟨0, [], none, 0, ∅⟩ (.markRemoved 7)) ∧
    (runAux (fun _ _ => []) 3 (execAction ⟨0, [⟨1, 2⟩], none, 0, ∅⟩ (.markRemoved 5)) =
      ((runAux (fun _ _ => []) 3 ⟨0, [⟨1, 2⟩], none, 0, ∅⟩).1,
       { (runAux (fun _ _ => []) 3 ⟨0, [⟨1, 2⟩], none, 0, ∅⟩).2.1 with
         removed := insert 5 ((runAux (fun _ _ => []) 3 ⟨0, [⟨1, 2⟩], none, 0, ∅⟩).2.1).removed },
       (runAux (fun _ _ => []) 3 ⟨0, [⟨1, 2⟩], none, 0, ∅⟩).2.2)) := by
  have h := event_remove_semantics (fun _ _ => [])
  refine ⟨⟨by decide, h.1 2 _ 3 (by decide)⟩, h.2.1 2 _, h.2.2.1 _ 7, ?_⟩
  exact h.2.2.2 5 (fun j s₁ s₂ _ _ _ _ => rfl)
    (fun j st e he => absurd he (List.not_mem_nil _))
    3 0 [⟨1, 2⟩] none 0 ∅ (by decide) (fun nv h => Option.noConfusion h)

theorem listRemove_mem_of_ne (e x : Event) (l l' : List Event)
    (h : listRemove l e = some l') (hx : x ∈ l) (hm : evMatches e x = false) :
    x ∈ l' := by
  obtain ⟨u, z, v, hl, hl', hz, _⟩ := listRemove_split e l l' h
  subst hl hl'
  have hxz : x ≠ z := by
    intro hxz
    subst hxz
    rw [hz] at hm
    exact Bool.noConfusion hm
  rcases List.mem_append.mp hx with hx | hx
  · exact List.mem_append.mpr (Or.inl hx)
  · rcases List.mem_cons.mp hx with hx | hx
    · exact absurd hx hxz
    · exact List.mem_append.mpr (Or.inr hx)

theorem firesBeforeLater_head (E : Event) (tr : List Event) :
    firesBeforeLater E (E :: tr) := by
  intro k f hf hlt
  cases k with
  | zero => exact absurd hf (by simp)
  | succ k' =>
    rw [List.take_succ_cons]
    exact List.mem_cons_self E _

theorem firesBeforeLater_cons (E y : Event) (tr : List Event)
    (hy : y.time ≤ E.time) (h : firesBeforeLater E tr) :
    firesBeforeLater E (y :: tr) := by
  intro k f hf hlt
  cases k with
  | zero => exact absurd hf (by simp)
  | succ k' =>
    rw [List.take_succ_cons] at hf ⊢
    rcases List.mem_cons.mp hf with hf | hf
    · subst hf
      exact absurd hlt (not_lt_of_le hy)
    · exact List.mem_cons_of_mem y (h k' f hf hlt)

theorem firesBeforeLater_nil (E : Event) : firesBeforeLater E [] := by
  intro k f hf _
  rw [List.take_nil] at hf
  exact absurd hf (List.not_mem_nil f)

theorem execAction_pending (E : Event) (s : SimState) (a : Action)
    (hmark : a ≠ Action.markRemoved E.id)
    (hrem : ∀ e, a = Action.removeEvent e → e.id ≠ E.id ∧ e.time ≠ E.time)
    (hsched : ∀ e, a = Action.schedule e → e.id ≠ E.id)
    (hsort : TimeSorted s.events) (hid : E.id ∉ s.removed)
    (hpend : s.nowEvent = some E ∨ E ∈ s.events) (hInv : NowInv s) :
    TimeSorted (execAction s a).events ∧ E.id ∉ (execAction s a).removed ∧
      ((execAction s a).nowEvent = some E ∨ E ∈ (execAction s a).events) ∧
      NowInv (execAction s a) := by
  cases a with
  | schedule e =>
    refine ⟨?_, ?_, ?_, execAction_nowInv s _ hInv⟩
    · show TimeSorted (add_event s e).events
      unfold add_event
      split
      · exact hsort
      · exact listAdd_sorted e s.events hsort
    · show E.id ∉ (add_event s e).removed
      rw [add_event_removed]
      exact hid
    · show (add_event s e).nowEvent = some E ∨ E ∈ (add_event s e).events
      unfold add_event
      split
      · rename_i hc
        rcases hpend with hp | hp
        · rw [hc.2] at hp
          exact Option.noConfusion hp
        · exact Or.inr hp
      · rcases hpend with hp | hp
        · exact Or.inl hp
        · exact Or.inr (listAdd_mem_of_mem e E s.events hp)
  | markRemoved j =>
    have hj : E.id ≠ j := by
      intro h
      exact hmark (by rw [h])
    refine ⟨hsort, ?_, hpend, hInv⟩
    show E.id ∉ insert j s.removed
    rw [Finset.mem_insert]
    push_neg
    exact ⟨hj, hid⟩
  | removeEvent e =>
    obtain ⟨hide, htimee⟩ := hrem e rfl
    have hmE : evMatches e E = false := by
      rw [evMatches]
      simp only [Bool.or_eq_false_iff, beq_eq_false_iff_ne, ne_eq]
      exact ⟨Ne.symm hide, Ne.symm htimee⟩
    rcases s with ⟨t, evs, nowE, cnt, rem⟩
    cases nowE with
    | none =>
      cases hr : listRemove evs e with
      | none =>
        simp only [execAction, remove_event, hr]
        exact ⟨hsort, hid, hpend, hInv⟩
      | some l' =>
        simp only [execAction, remove_event, hr]
        refine ⟨listRemove_sorted e evs l' hsort hr, hid, ?_, ?_⟩
        · rcases hpend with hp | hp
          · exact Option.noConfusion hp
          · exact Or.inr (listRemove_mem_of_ne e E evs l' hr hp hmE)
        · intro e' he'
          exact Option.noConfusion he'
    | some nv =>
      by_cases hidnv : nv.id = e.id
      · simp only [execAction, remove_event, hidnv, if_pos]
        refine ⟨hsort, hid, ?_, ?_⟩
        · rcases hpend with hp | hp
          · cases hp
            exact absurd hidnv (Ne.symm hide)
          · exact Or.inr hp
        · intro e' he'
          exact Option.noConfusion he'
      · cases hr : listRemove evs e with
        | none =>
          simp only [execAction, remove_event, hidnv, if_neg, not_false_iff, hr]
          exact ⟨hsort, hid, hpend, hInv⟩
        | some l' =>
          simp only [execAction, remove_event, hidnv, if_neg, not_false_iff, hr]
          refine ⟨listRemove_sorted e evs l' hsort hr, hid, ?_, ?_⟩
          · rcases hpend with hp | hp
            · exact Or.inl hp
            · exact Or.inr (listRemove_mem_of_ne e E evs l' hr hp hmE)
          · intro e' he'
            exact hInv e' he'

theorem foldl_execAction_pending (E : Event) (actions : List Action)
    (hmark : ∀ a ∈ actions, a ≠ Action.markRemoved E.id)
    (hrem : ∀ a ∈ actions, ∀ e, a = Action.removeEvent e →
      e.id ≠ E.id ∧ e.time ≠ E.time)
    (hsched : ∀ a ∈ actions, ∀ e, a = Action.schedule e → e.id ≠ E.id) :
    ∀ s : SimState, TimeSorted s.events → E.id ∉ s.removed →
      (s.nowEvent = some E ∨ E ∈ s.events) → NowInv s →
      TimeSorted (actions.foldl execAction s).events ∧
        E.id ∉ (actions.foldl execAction s).removed ∧
        ((actions.foldl execAction s).nowEvent = some E ∨
          E ∈ (actions.foldl execAction s).events) ∧
        NowInv (actions.foldl execAction s) := by
  induction actions with
  | nil => intro s h1 h2 h3 h4; exact ⟨h1, h2, h3, h4⟩
  | cons a rest ih =>
    intro s h1 h2 h3 h4
    rw [List.foldl_cons]
    have hstep := execAction_pending E s a
      (hmark a (List.mem_cons_self a rest))
      (hrem a (List.mem_cons_self a rest))
      (hsched a (List.mem_cons_self a rest)) h1 h2 h3 h4
    exact ih (fun a' ha' => hmark a' (List.mem_cons_of_mem a ha'))
      (fun a' ha' => hrem a' (List.mem_cons_of_mem a ha'))
      (fun a' ha' => hsched a' (List.mem_cons_of_mem a ha'))
      _ hstep.1 hstep.2.1 hstep.2.2.1 hstep.2.2.2

theorem runAux_pending_now_first (handler : Handler) (E : Event)
    (hmark : ∀ j st, Action.markRemoved E.id ∉ handler j st)
    (hrem : ∀ j st e, Action.removeEvent e ∈ handler j st →
      e.id ≠ E.id ∧ e.time ≠ E.time)
    (hsched : ∀ j st e, Action.schedule e ∈ handler j st → e.id ≠ E.id) :
    ∀ (fuel : Nat) (s : SimState), NowInv s → TimeSorted s.events →
      s.time ≤ E.time → E.id ∉ s.removed →
      (s.nowEvent = some E ∨ E ∈ s.events) →
      firesBeforeLater E (runAux handler fuel s).1 := by
  intro fuel
  induction fuel with
  | zero => intro s _ _ _ _ _; exact firesBeforeLater_nil E
  | succ fuel ih =>
    intro s hInv hsort htE hid hpend
    rcases s with ⟨t, evs, nowE, cnt, rem⟩
    cases nowE with
    | some nv =>
      by_cases hnvE : nv = E
      · subst hnvE
        have hrem' : nv.id ∉ rem := hid
        have hstep : (runAux handler (fuel + 1) ⟨t, evs, some nv, cnt, rem⟩).1 =
            nv :: (runAux handler fuel
              { (handler nv.id ⟨t, evs, none, cnt, rem⟩).foldl execAction
                  ⟨t, evs, none, cnt, rem⟩ with
                eventCount := ((handler nv.id ⟨t, evs, none, cnt, rem⟩).foldl execAction
                  ⟨t, evs, none, cnt, rem⟩).eventCount + 1 }).1 := by
          simp [runAux, pop_event, hrem']
        rw [hstep]
        exact firesBeforeLater_head nv _
      · have hEevs : E ∈ evs := by
          rcases hpend with hp | hp
          · exact absurd (Option.some.inj hp) hnvE
          · exact hp
        have hnvt : nv.time = t := hInv nv rfl
        by_cases hrem' : nv.id ∈ rem
        · have hstep : runAux handler (fuel + 1) ⟨t, evs, some nv, cnt, rem⟩ =
              runAux handler fuel ⟨t, evs, none, cnt, rem⟩ := by
            simp [runAux, pop_event, hrem']
          rw [hstep]
          exact ih ⟨t, evs, none, cnt, rem⟩
            (nowInv_of_none ⟨t, evs, none, cnt, rem⟩ rfl) hsort htE hid (Or.inr hEevs)
        · have hstep : (runAux handler (fuel + 1) ⟨t, evs, some nv, cnt, rem⟩).1 =
              nv :: (runAux handler fuel
                { (handler nv.id ⟨t, evs, none, cnt, rem⟩).foldl execAction
                    ⟨t, evs, none, cnt, rem⟩ with
                  eventCount := ((handler nv.id ⟨t, evs, none, cnt, rem⟩).foldl execAction
                    ⟨t, evs, none, cnt, rem⟩).eventCount + 1 }).1 := by
            simp [runAux, pop_event, hrem']
          rw [hstep]
          have hfold := foldl_execAction_pending E
            (handler nv.id ⟨t, evs, none, cnt, rem⟩)
            (fun a ha heq => hmark nv.id ⟨t, evs, none, cnt, rem⟩ (heq ▸ ha))
            (fun a ha e heq => hrem nv.id ⟨t, evs, none, cnt, rem⟩ e (heq ▸ ha))
            (fun a ha e heq => hsched nv.id ⟨t, evs, none, cnt, rem⟩ e (heq ▸ ha))
            ⟨t, evs, none, cnt, rem⟩ hsort hid (Or.inr hEevs)
            (nowInv_of_none ⟨t, evs, none, cnt, rem⟩ rfl)
          have htime2 : ((handler nv.id ⟨t, evs, none, cnt, rem⟩).foldl execAction
              ⟨t, evs, none, cnt, rem⟩).time = t := foldl_execAction_time _ _
          refine firesBeforeLater_cons E nv _ (by rw [hnvt]; exact htE) ?_
          refine ih _ ?_ hfold.1 ?_ hfold.2.1 hfold.2.2.1
          · intro e' he'
            exact hfold.2.2.2 e' he'
          · show ((handler nv.id ⟨t, evs, none, cnt, rem⟩).foldl execAction
              ⟨t, evs, none, cnt, rem⟩).time ≤ E.time
            rw [htime2]
            exact htE
    | none =>
      have hEevs : E ∈ evs := by
        rcases hpend with hp | hp
        · exact Option.noConfusion hp
        · exact hp
      cases evs with
      | nil => exact absurd hEevs (List.not_mem_nil E)
      | cons y rest =>
        by_cases hyE : y = E
        · subst hyE
          have hrem' : y.id ∉ rem := hid
          have hstep : (runAux handler (fuel + 1) ⟨t, y :: rest, none, cnt, rem⟩).1 =
              y :: (runAux handler fuel
                { (handler y.id ⟨y.time, rest, none, cnt, rem⟩).foldl execAction
                    ⟨y.time, rest, none, cnt, rem⟩ with
                  eventCount := ((handler y.id ⟨y.time, rest, none, cnt, rem⟩).foldl
                    execAction ⟨y.time, rest, none, cnt, rem⟩).eventCount + 1 }).1 := by
            simp [runAux, pop_event, hrem', htE]
          rw [hstep]
          exact firesBeforeLater_head y _
        · have hErest : E ∈ rest := by
            rcases List.mem_cons.mp hEevs with hp | hp
            · exact absurd hp.symm hyE
            · exact hp
          have hyt : y.time ≤ E.time := List.rel_of_sorted_cons hsort E hErest
          by_cases hrem' : y.id ∈ rem
          · have hstep : runAux handler (fuel + 1) ⟨t, y :: rest, none, cnt, rem⟩ =
                runAux handler fuel ⟨t, rest, none, cnt, rem⟩ := by
              simp [runAux, pop_event, hrem']
            rw [hstep]
            exact ih ⟨t, rest, none, cnt, rem⟩
              (nowInv_of_none ⟨t, rest, none, cnt, rem⟩ rfl) hsort.of_cons htE hid
              (Or.inr hErest)
          · by_cases htime : t ≤ y.time
            · have hstep : (runAux handler (fuel + 1) ⟨t, y :: rest, none, cnt, rem⟩).1 =
                  y :: (runAux handler fuel
                    { (handler y.id ⟨y.time, rest, none, cnt, rem⟩).foldl execAction
                        ⟨y.time, rest, none, cnt, rem⟩ with
                      eventCount := ((handler y.id ⟨y.time, rest, none, cnt, rem⟩).foldl
                        execAction ⟨y.time, rest, none, cnt, rem⟩).eventCount + 1 }).1 := by
                simp [runAux, pop_event, hrem', htime]
              rw [hstep]
              have hfold := foldl_execAction_pending E
                (handler y.id ⟨y.time, rest, none, cnt, rem⟩)
                (fun a ha heq => hmark y.id ⟨y.time, rest, none, cnt, rem⟩ (heq ▸ ha))
                (fun a ha e heq => hrem y.id ⟨y.time, rest, none, cnt, rem⟩ e (heq ▸ ha))
                (fun a ha e heq => hsched y.id ⟨y.time, rest, none, cnt, rem⟩ e (heq ▸ ha))
                ⟨y.time, rest, none, cnt, rem⟩ hsort.of_cons hid (Or.inr hErest)
                (nowInv_of_none ⟨y.time, rest, none, cnt, rem⟩ rfl)
              have htime2 : ((handler y.id ⟨y.time, rest, none, cnt, rem⟩).foldl execAction
                  ⟨y.time, rest, none, cnt, rem⟩).time = y.time := foldl_execAction_time _ _
              refine firesBeforeLater_cons E y _ hyt ?_
              refine ih _ ?_ hfold.1 ?_ hfold.2.1 hfold.2.2.1
              · intro e' he'
                exact hfold.2.2.2 e' he'
              · show ((handler y.id ⟨y.time, rest, none, cnt, rem⟩).foldl execAction
                  ⟨y.time, rest, none, cnt, rem⟩).time ≤ E.time
                rw [htime2]
                exact hyt
            · have hstep : runAux handler (fuel + 1) ⟨t, y :: rest, none, cnt, rem⟩ =
                  ([], ⟨t, y :: rest, none, cnt, rem⟩, .aborted) := by
                simp [runAux, pop_event, hrem', htime]
              rw [hstep]
              exact firesBeforeLater_nil E

/-- C2: An event `E` scheduled (via `add_event`) at exactly the current
simulation time — as happens when a handler creates an event at `now`
during the firing of another event — fires after the currently firing
event completes and before any event whose scheduled time is strictly
larger than the current time: in the fired trace of the continuation of
the run, every prefix containing an event with time greater than `E.time`
already contains `E`.  (Hypotheses: the starting state satisfies the
kernel invariants — a now-slot occupant carries the current time and the
pending list is time-sorted — `E` is not removed, and no handler cancels
`E` or schedules or removes events that could collide with it by id or by
`Event.__eq__` time equality.) -/
theorem now_scheduled_event_fires_before_later (handler : Handler) (E : Event)
    (hmark : ∀ j st, Action.markRemoved E.id ∉ handler j st)
    (hrem : ∀ j st e, Action.removeEvent e ∈ handler j st →
      e.id ≠ E.id ∧ e.time ≠ E.time)
    (hsched : ∀ j st e, Action.schedule e ∈ handler j st → e.id ≠ E.id)
    (fuel : Nat) (s : SimState) (hInv : NowInv s) (hsort : TimeSorted s.events)
    (htime : E.time = s.time) (hid : E.id ∉ s.removed) :
    firesBeforeLater E (runAux handler fuel (add_event s E)).1 := by
  have hbase := runAux_pending_now_first handler E hmark hrem hsched fuel
  unfold add_event
  split
  · rename_i hc
    refine hbase _ ?_ hsort (le_of_eq htime.symm) hid (Or.inl rfl)
    intro e' he'
    cases he'
    exact htime
  · refine hbase _ ?_ (listAdd_sorted E s.events hsort) (le_of_eq htime.symm) hid
      (Or.inr (listAdd_mem_self E s.events))
    intro e' he'
    exact hInv e' he'

theorem now_scheduled_event_fires_before_later_witness :
    ((⟨5, 1⟩ : Event).time = (⟨1, [⟨9, 2⟩], none, 0, ∅⟩ : SimState).time) ∧
    firesBeforeLater ⟨5, 1⟩
      (runAux (fun _ _ => []) 4 (add_event ⟨1, [⟨9, 2⟩], none, 0, ∅⟩ ⟨5, 1⟩)).1 :=
  ⟨rfl, now_scheduled_event_fires_before_later (fun _ _ => []) ⟨5, 1⟩
    (fun j st h => List.not_mem_nil _ h)
    (fun j st e h => absurd h (List.not_mem_nil _))
    (fun j st e h => absurd h (List.not_mem_nil _))
    4 ⟨1, [⟨9, 2⟩], none, 0, ∅⟩
    (nowInv_of_none ⟨1, [⟨9, 2⟩], none, 0, ∅⟩ rfl)
    (List.sorted_singleton _) rfl (by simp)⟩

/-- C1 counterexample: event A (id 1, time 1) is added to the simulator
before event B (id 2, time 1); neither is ever removed; yet B fires before
A.  The firing event C (id 0, time 1) schedules B at exactly the current
time, so B enters the now-event slot and jumps ahead of A, which has been
waiting in the sorted pending list.  FIFO among ties is violated. -/
theorem tie_fifo_violated :
    (add_event (add_event ⟨0, [], none, 0, ∅⟩ ⟨0, 1⟩) ⟨1, 1⟩ : SimState).events =
      [⟨0, 1⟩, ⟨1, 1⟩] ∧
    ((⟨1, 1⟩ : Event).time = (⟨2, 1⟩ : Event).time) ∧
    (runAux (fun i _ => if i = 0 then [Action.schedule ⟨2, 1⟩] else []) 5
        (add_event (add_event ⟨0, [], none, 0, ∅⟩ ⟨0, 1⟩) ⟨1, 1⟩)).1 =
      [⟨0, 1⟩, ⟨2, 1⟩, ⟨1, 1⟩] ∧
    ((runAux (fun i _ => if i = 0 then [Action.schedule ⟨2, 1⟩] else []) 5
        (add_event (add_event ⟨0, [], none, 0, ∅⟩ ⟨0, 1⟩) ⟨1, 1⟩)).2.1.removed = ∅) ∧
    ¬ beforeIn ⟨1, 1⟩ ⟨2, 1⟩
      (runAux (fun i _ => if i = 0 then [Action.schedule ⟨2, 1⟩] else []) 5
        (add_event (add_event ⟨0, [], none, 0, ∅⟩ ⟨0, 1⟩) ⟨1, 1⟩)).1 := by
  refine ⟨by decide, by decide, by decide, by decide, ?_⟩
  intro h
  have h2 := h 2 (by decide)
  revert h2
  decide

theorem beforeIn_nil (A B : Event) : beforeIn A B [] := by
  intro k hk
  rw [List.take_nil] at hk
  exact absurd hk (List.not_mem_nil B)

theorem beforeIn_head (A B : Event) (tr : List Event) : beforeIn A B (A :: tr) := by
  intro k hk
  cases k with
  | zero => exact absurd hk (by simp)
  | succ k' =>
    rw [List.take_succ_cons]
    exact List.mem_cons_self A _

theorem beforeIn_cons (A B y : Event) (tr : List Event) (hy : y ≠ B)
    (h : beforeIn A B tr) : beforeIn A B (y :: tr) := by
  intro k hk
  cases k with
  | zero => exact absurd hk (by simp)
  | succ k' =>
    rw [List.take_succ_cons] at hk ⊢
    rcases List.mem_cons.mp hk with hk | hk
    · exact absurd hk.symm hy
    · exact List.mem_cons_of_mem y (h k' hk)

theorem priorTo_uncons (A B y : Event) (rest : List Event)
    (h : priorTo A B (y :: rest)) (hyA : y ≠ A) : y ≠ B ∧ priorTo A B rest := by
  obtain ⟨u, v, huv, hB⟩ := h
  cases u with
  | nil =>
    rw [List.nil_append] at huv
    injection huv with h1 h2
    exact absurd h1 hyA
  | cons u0 u' =>
    rw [List.cons_append] at huv
    injection huv with h1 h2
    subst h1
    refine ⟨?_, u', v, h2, fun hBu => hB (List.mem_cons_of_mem y hBu)⟩
    intro hyB
    exact hB (hyB ▸ List.mem_cons_self y u')

theorem priorTo_listAdd (A B e : Event) (l : List Event)
    (h : priorTo A B l) (he : e ≠ B) : priorTo A B (listAdd l e) := by
  obtain ⟨u, v, huv, hB⟩ := h
  obtain ⟨p, q, hpq, hadd⟩ := listAdd_split e l
  rw [hadd]
  rw [huv] at hpq
  rcases List.append_eq_append_iff.mp hpq with ⟨w, hw1, hw2⟩ | ⟨w, hw1, hw2⟩
  · -- p = u ++ w, A :: v = w ++ q : the insertion point is at or after A
    cases w with
    | nil =>
      rw [List.nil_append] at hw2
      rw [List.append_nil] at hw1
      subst hw1
      refine ⟨p ++ [e], v, ?_, ?_⟩
      · rw [← hw2]
        simp
      · intro hBm
        rcases List.mem_append.mp hBm with hBm | hBm
        · exact hB hBm
        · rcases List.mem_singleton.mp hBm with hBm
          exact he hBm.symm
    | cons w0 w' =>
      rw [List.cons_append] at hw2
      injection hw2 with h1 h2
      subst h1
      refine ⟨u, w' ++ e :: q, ?_, hB⟩
      rw [hw1]
      simp [h2]
  · -- u = p ++ w, q = w ++ A :: v : the insertion point is before A
    refine ⟨p ++ e :: w, v, ?_, ?_⟩
    · rw [hw2]
      simp
    · intro hBm
      rcases List.mem_append.mp hBm with hBm | hBm
      · exact hB (hw1 ▸ List.mem_append.mpr (Or.inl hBm))
      · rcases List.mem_cons.mp hBm with hBm | hBm
        · exact he hBm.symm
        · exact hB (hw1 ▸ List.mem_append.mpr (Or.inr hBm))

theorem priorTo_listRemove (A B e : Event) (l l' : List Event)
    (h : priorTo A B l) (hr : listRemove l e = some l')
    (hmA : evMatches e A = false) (hmB : evMatches e B = false) :
    priorTo A B l' := by
  obtain ⟨u, v, huv, hB⟩ := h
  obtain ⟨p, z, q, hl, hl', hz, hp⟩ := listRemove_split e l l' hr
  have hzA : z ≠ A := by
    intro hzA
    rw [hzA, hmA] at hz
    exact Bool.noConfusion hz
  rw [huv] at hl
  rw [hl']
  rcases List.append_eq_append_iff.mp hl.symm with ⟨w, hw1, hw2⟩ | ⟨w, hw1, hw2⟩
  · -- u = p ++ w, z :: q = w ++ A :: v : the removed entry is inside u
    cases w with
    | nil =>
      rw [List.nil_append] at hw2
      injection hw2 with h1 h2
      exact absurd h1 hzA
    | cons w0 w' =>
      rw [List.cons_append] at hw2
      injection hw2 with h1 h2
      subst h1
      refine ⟨p ++ w', v, ?_, ?_⟩
      · rw [h2]
        simp
      · intro hBm
        rcases List.mem_append.mp hBm with hBm | hBm
        · exact hB (hw1 ▸ List.mem_append.mpr (Or.inl hBm))
        · exact hB (hw1 ▸ List.mem_append.mpr
            (Or.inr (List.mem_cons_of_mem z hBm)))
  · -- p = u ++ w, A :: v = w ++ z :: q : the removed entry is at or after A
    cases w with
    | nil =>
      rw [List.nil_append] at hw2
      injection hw2 with h1 h2
      exact absurd h1.symm hzA
    | cons w0 w' =>
      rw [List.cons_append] at hw2
      injection hw2 with h1 h2
      subst h1
      refine ⟨u, w' ++ q, ?_, hB⟩
      rw [hw1]
      simp

theorem execAction_priorTo (A B : Event) (s : SimState) (a : Action)
    (htie : A.time = B.time)
    (hmark : a ≠ Action.markRemoved A.id)
    (hrem : ∀ e, a = Action.removeEvent e →
      e.time ≠ A.time ∧ e.id ≠ A.id ∧ e.id ≠ B.id)
    (hsched : ∀ e, a = Action.schedule e → e.id ≠ B.id)
    (hP : priorTo A B s.events) (hid : A.id ∉ s.removed)
    (hnv : ∀ nv, s.nowEvent = some nv → nv ≠ B) :
    priorTo A B (execAction s a).events ∧ A.id ∉ (execAction s a).removed ∧
      (∀ nv, (execAction s a).nowEvent = some nv → nv ≠ B) := by
  cases a with
  | schedule e =>
    have heB : e ≠ B := by
      intro heB
      exact hsched e rfl (by rw [heB])
    refine ⟨?_, ?_, ?_⟩
    · show priorTo A B (add_event s e).events
      unfold add_event
      split
      · exact hP
      · exact priorTo_listAdd A B e s.events hP heB
    · show A.id ∉ (add_event s e).removed
      rw [add_event_removed]
      exact hid
    · show ∀ nv, (add_event s e).nowEvent = some nv → nv ≠ B
      unfold add_event
      split
      · intro nv hnvv
        cases hnvv
        exact heB
      · exact hnv
  | markRemoved j =>
    have hj : A.id ≠ j := by
      intro h
      exact hmark (by rw [h])
    refine ⟨hP, ?_, hnv⟩
    show A.id ∉ insert j s.removed
    rw [Finset.mem_insert]
    push_neg
    exact ⟨hj, hid⟩
  | removeEvent e =>
    obtain ⟨hte, hia, hib⟩ := hrem e rfl
    have hmA : evMatches e A = false := by
      rw [evMatches]
      simp only [Bool.or_eq_false_iff, beq_eq_false_iff_ne, ne_eq]
      exact ⟨Ne.symm hia, fun h => hte h.symm⟩
    have hmB : evMatches e B = false := by
      rw [evMatches]
      simp only [Bool.or_eq_false_iff, beq_eq_false_iff_ne, ne_eq]
      refine ⟨Ne.symm hib, ?_⟩
      intro h
      exact hte (h ▸ htie.symm)
    rcases s with ⟨t, evs, nowE, cnt, rem⟩
    cases nowE with
    | none =>
      cases hr : listRemove evs e with
      | none =>
        simp only [execAction, remove_event, hr]
        exact ⟨hP, hid, fun nv h => Option.noConfusion h⟩
      | some l' =>
        simp only [execAction, remove_event, hr]
        exact ⟨priorTo_listRemove A B e evs l' hP hr hmA hmB, hid,
          fun nv h => Option.noConfusion h⟩
    | some nv =>
      by_cases hidnv : nv.id = e.id
      · simp only [execAction, remove_event, hidnv, if_pos]
        exact ⟨hP, hid, fun nv' h => Option.noConfusion h⟩
      · cases hr : listRemove evs e with
        | none =>
          simp only [execAction, remove_event, hidnv, if_neg, not_false_iff, hr]
          exact ⟨hP, hid, hnv⟩
        | some l' =>
          simp only [execAction, remove_event, hidnv, if_neg, not_false_iff, hr]
          exact ⟨priorTo_listRemove A B e evs l' hP hr hmA hmB, hid, hnv⟩

theorem foldl_execAction_priorTo (A B : Event) (htie : A.time = B.time)
    (actions : List Action)
    (hmark : ∀ a ∈ actions, a ≠ Action.markRemoved A.id)
    (hrem : ∀ a ∈ actions, ∀ e, a = Action.removeEvent e →
      e.time ≠ A.time ∧ e.id ≠ A.id ∧ e.id ≠ B.id)
    (hsched : ∀ a ∈ actions, ∀ e, a = Action.schedule e → e.id ≠ B.id) :
    ∀ s : SimState, priorTo A B s.events → A.id ∉ s.removed →
      (∀ nv, s.nowEvent = some nv → nv ≠ B) →
      priorTo A B (actions.foldl execAction s).events ∧
        A.id ∉ (actions.foldl execAction s).removed ∧
        (∀ nv, (actions.foldl execAction s).nowEvent = some nv → nv ≠ B) := by
  induction actions with
  | nil => intro s h1 h2 h3; exact ⟨h1, h2, h3⟩
  | cons a rest ih =>
    intro s h1 h2 h3
    rw [List.foldl_cons]
    have hstep := execAction_priorTo A B s a htie
      (hmark a (List.mem_cons_self a rest))
      (hrem a (List.mem_cons_self a rest))
      (hsched a (List.mem_cons_self a rest)) h1 h2 h3
    exact ih (fun a' ha' => hmark a' (List.mem_cons_of_mem a ha'))
      (fun a' ha' => hrem a' (List.mem_cons_of_mem a ha'))
      (fun a' ha' => hsched a' (List.mem_cons_of_mem a ha'))
      _ hstep.1 hstep.2.1 hstep.2.2

theorem runAux_priorTo_fifo (handler : Handler) (A B : Event)
    (htie : A.time = B.time)
    (hmark : ∀ j st, Action.markRemoved A.id ∉ handler j st)
    (hrem : ∀ j st e, Action.removeEvent e ∈ handler j st →
      e.time ≠ A.time ∧ e.id ≠ A.id ∧ e.id ≠ B.id)
    (hsched : ∀ j st e, Action.schedule e ∈ handler j st → e.id ≠ B.id) :
    ∀ (fuel : Nat) (s : SimState), priorTo A B s.events → A.id ∉ s.removed →
      (∀ nv, s.nowEvent = some nv → nv ≠ B) →
      beforeIn A B (runAux handler fuel s).1 := by
  intro fuel
  induction fuel with
  | zero => intro s _ _ _; exact beforeIn_nil A B
  | succ fuel ih =>
    intro s hP hidA hnvB
    rcases s with ⟨t, evs, nowE, cnt, rem⟩
    cases nowE with
    | some nv =>
      have hnvB' : nv ≠ B := hnvB nv rfl
      by_cases hrem' : nv.id ∈ rem
      · have hstep : runAux handler (fuel + 1) ⟨t, evs, some nv, cnt, rem⟩ =
            runAux handler fuel ⟨t, evs, none, cnt, rem⟩ := by
          simp [runAux, pop_event, hrem']
        rw [hstep]
        exact ih ⟨t, evs, none, cnt, rem⟩ hP hidA
          (fun nv' h => Option.noConfusion h)
      · have hstep : (runAux handler (fuel + 1) ⟨t, evs, some nv, cnt, rem⟩).1 =
            nv :: (runAux handler fuel
              { (handler nv.id ⟨t, evs, none, cnt, rem⟩).foldl execAction
                  ⟨t, evs, none, cnt, rem⟩ with
                eventCount := ((handler nv.id ⟨t, evs, none, cnt, rem⟩).foldl execAction
                  ⟨t, evs, none, cnt, rem⟩).eventCount + 1 }).1 := by
          simp [runAux, pop_event, hrem']
        rw [hstep]
        by_cases hnvA : nv = A
        · subst hnvA
          exact beforeIn_head nv B _
        · have hfold := foldl_execAction_priorTo A B htie
            (handler nv.id ⟨t, evs, none, cnt, rem⟩)
            (fun a ha heq => hmark nv.id ⟨t, evs, none, cnt, rem⟩ (heq ▸ ha))
            (fun a ha e heq => hrem nv.id ⟨t, evs, none, cnt, rem⟩ e (heq ▸ ha))
            (fun a ha e heq => hsched nv.id ⟨t, evs, none, cnt, rem⟩ e (heq ▸ ha))
            ⟨t, evs, none, cnt, rem⟩ hP hidA (fun nv' h => Option.noConfusion h)
          exact beforeIn_cons A B nv _ hnvB'
            (ih _ hfold.1 hfold.2.1 hfold.2.2)
    | none =>
      cases evs with
      | nil =>
        obtain ⟨u, v, huv, _⟩ := hP
        exact absurd huv (by simp)
      | cons y rest =>
        by_cases hyA : y = A
        · subst hyA
          have hrem' : y.id ∉ rem := hidA
          by_cases htime : t ≤ y.time
          · have hstep : (runAux handler (fuel + 1) ⟨t, y :: rest, none, cnt, rem⟩).1 =
                y :: (runAux handler fuel
                  { (handler y.id ⟨y.time, rest, none, cnt, rem⟩).foldl execAction
                      ⟨y.time, rest, none, cnt, rem⟩ with
                    eventCount := ((handler y.id ⟨y.time, rest, none, cnt, rem⟩).foldl
                      execAction ⟨y.time, rest, none, cnt, rem⟩).eventCount + 1 }).1 := by
              simp [runAux, pop_event, hrem', htime]
            rw [hstep]
            exact beforeIn_head y B _
          · have hstep : runAux handler (fuel + 1) ⟨t, y :: rest, none, cnt, rem⟩ =
                ([], ⟨t, y :: rest, none, cnt, rem⟩, .aborted) := by
              simp [runAux, pop_event, hrem', htime]
            rw [hstep]
            exact beforeIn_nil y B
        · obtain ⟨hyB, hPrest⟩ := priorTo_uncons A B y rest hP hyA
          by_cases hrem' : y.id ∈ rem
          · have hstep : runAux handler (fuel + 1) ⟨t, y :: rest, none, cnt, rem⟩ =
                runAux handler fuel ⟨t, rest, none, cnt, rem⟩ := by
              simp [runAux, pop_event, hrem']
            rw [hstep]
            exact ih ⟨t, rest, none, cnt, rem⟩ hPrest hidA
              (fun nv' h => Option.noConfusion h)
          · by_cases htime : t ≤ y.time
            · have hstep : (runAux handler (fuel + 1) ⟨t, y :: rest, none, cnt, rem⟩).1 =
                  y :: (runAux handler fuel
                    { (handler y.id ⟨y.time, rest, none, cnt, rem⟩).foldl execAction
                        ⟨y.time, rest, none, cnt, rem⟩ with
                      eventCount := ((handler y.id ⟨y.time, rest, none, cnt, rem⟩).foldl
                        execAction ⟨y.time, rest, none, cnt, rem⟩).eventCount + 1 }).1 := by
                simp [runAux, pop_event, hrem', htime]
              rw [hstep]
              have hfold := foldl_execAction_priorTo A B htie
                (handler y.id ⟨y.time, rest, none, cnt, rem⟩)
                (fun a ha heq => hmark y.id ⟨y.time, rest, none, cnt, rem⟩ (heq ▸ ha))
                (fun a ha e heq => hrem y.id ⟨y.time, rest, none, cnt, rem⟩ e (heq ▸ ha))
                (fun a ha e heq => hsched y.id ⟨y.time, rest, none, cnt, rem⟩ e (heq ▸ ha))
                ⟨y.time, rest, none, cnt, rem⟩ hPrest hidA
                (fun nv' h => Option.noConfusion h)
              exact beforeIn_cons A B y _ hyB
                (ih _ hfold.1 hfold.2.1 hfold.2.2)
            · have hstep : runAux handler (fuel + 1) ⟨t, y :: rest, none, cnt, rem⟩ =
                  ([], ⟨t, y :: rest, none, cnt, rem⟩, .aborted) := by
                simp [runAux, pop_event, hrem', htime]
              rw [hstep]
              exact beforeIn_nil A B

/-- C1 amended: FIFO among ties holds for events that go through the
sorted pending list: if `A` is pending in the list and the tie `B`
(equal scheduled time, fresh id) is then added while it does *not* enter
the now-event slot (the slot is occupied or `B`'s time differs from the
current clock), `A.run()` is invoked before `B.run()` in the rest of the
run.  An event scheduled at exactly the current time into the free
now-slot instead jumps ahead of earlier-added ties (see the
counterexample).  (Hypotheses: the pending list is time-sorted, `A` is not
removed, no pending or slot event reuses `B`'s id, and no handler cancels
`A`, schedules `B`'s id, or removes events matching the tie's time or
either id.) -/
theorem tie_fifo_for_list_events (handler : Handler) (A B : Event)
    (htie : A.time = B.time)
    (hmark : ∀ j st, Action.markRemoved A.id ∉ handler j st)
    (hrem : ∀ j st e, Action.removeEvent e ∈ handler j st →
      e.time ≠ A.time ∧ e.id ≠ A.id ∧ e.id ≠ B.id)
    (hsched : ∀ j st e, Action.schedule e ∈ handler j st → e.id ≠ B.id)
    (fuel : Nat) (s : SimState)
    (hsort : TimeSorted s.events) (hA : A ∈ s.events) (hidA : A.id ∉ s.removed)
    (hBfresh : ∀ x ∈ s.events, x.id ≠ B.id)
    (hnvB : ∀ nv, s.nowEvent = some nv → nv.id ≠ B.id)
    (hslot : ¬(B.time = s.time ∧ s.nowEvent = none)) :
    beforeIn A B (runAux handler fuel (add_event s B)).1 := by
  have hstate : add_event s B = { s with events := listAdd s.events B } := by
    rw [add_event, if_neg hslot]
  rw [hstate]
  have hP : priorTo A B (listAdd s.events B) := by
    obtain ⟨p, q, hpq, hadd, hple, hqlt⟩ := listAdd_split_sorted B s.events hsort
    have hAp : A ∈ p := by
      rw [hpq] at hA
      rcases List.mem_append.mp hA with h | h
      · exact h
      · exact absurd (htie ▸ hqlt A h) (lt_irrefl A.time)
    obtain ⟨p1, p2, hp12⟩ := List.append_of_mem hAp
    refine ⟨p1, p2 ++ B :: q, ?_, ?_⟩
    · rw [hadd, hp12]
      simp
    · intro hBm
      have hBevents : B ∈ s.events := by
        rw [hpq]
        refine List.mem_append.mpr (Or.inl ?_)
        rw [hp12]
        exact List.mem_append.mpr (Or.inl hBm)
      exact hBfresh B hBevents rfl
  exact runAux_priorTo_fifo handler A B htie hmark hrem hsched fuel
    { s with events := listAdd s.events B } hP hidA
    (fun nv hnv => fun hnvB' => hnvB nv hnv (by rw [hnvB']))

theorem tie_fifo_for_list_events_witness :
    ((⟨1, 1⟩ : Event).time = (⟨2, 1⟩ : Event).time) ∧
    (⟨1, 1⟩ : Event) ∈ (⟨0, [⟨1, 1⟩], none, 0, ∅⟩ : SimState).events ∧
    beforeIn ⟨1, 1⟩ ⟨2, 1⟩
      (runAux (fun _ _ => []) 5 (add_event ⟨0, [⟨1, 1⟩], none, 0, ∅⟩ ⟨2, 1⟩)).1 :=
  ⟨rfl, List.mem_cons_self _ _,
   tie_fifo_for_list_events (fun _ _ => []) ⟨1, 1⟩ ⟨2, 1⟩ rfl
     (fun j st h => List.not_mem_nil _ h)
     (fun j st e h => absurd h (List.not_mem_nil _))
     (fun j st e h => absurd h (List.not_mem_nil _))
     5 ⟨0, [⟨1, 1⟩], none, 0, ∅⟩
     (List.sorted_singleton _) (List.mem_cons_self _ _) (by simp)
     (by decide) (fun nv h => Option.noConfusion h)
     (by intro hc; exact absurd hc.1 (by norm_num))⟩

end QueueSim
